import Mathlib

/-
  Verification development for the grid-navigation agent
  (two engines: an A*-style best-first engine in astar.cpp and an
  exhaustive backtracking engine in backtracking.cpp).

  The C++ sources are shallowly embedded: cells are records addressed by
  coordinate, the shared_ptr identity of a cell coincides with its
  coordinate (the grid holds exactly one live cell per coordinate after
  initialisation, and every pointer stored anywhere refers to a grid
  cell), the std::set frontier is a list kept sorted by the source
  comparator (entries are erased before any key field is mutated, so the
  stored order always agrees with the current field values), and the
  interactive oracle is a function from the index of the move request to
  the list of reported event triples.
-/

namespace AIHW

/-- A coordinate `(n, m)`: row, column. Cell identity in the C++ is
shared_ptr identity, which after table initialisation coincides with the
coordinate, so coordinates serve as cell identity here. -/
abbrev Coord := Int × Int

/-- `INF` from both sources: `INT16_MAX`. -/
def INF : Int := 32767

/-- An oracle event triple: row, column, status character.
The C++ reads column, row, status and writes `table[n][m]->cell_status`. -/
structure Ev where
  en : Int
  em : Int
  es : Char
deriving DecidableEq, Repr

/-- The oracle: for the `k`-th move request emitted by the program, the
list of event triples it reports back. -/
abbrev Oracle := Nat → List Ev

/-- `in_borders` from astar.cpp / backtracking.cpp (`TABLE_SIZE` = 9). -/
def in_borders (n m : Int) : Bool :=
  decide (0 ≤ n) && decide (n < 9) && decide (0 ≤ m) && decide (m < 9)

/-- `manhattan_distance` from astar.cpp. -/
def manhattan_distance (from_n from_m to_n to_m : Int) : Int :=
  ((from_n - to_n).natAbs : Int) + ((from_m - to_m).natAbs : Int)

/-- `dangerous_status` from both sources (status is one of the hazard
characters P, M, H, T). -/
def dangerous_status (c : Char) : Bool :=
  c = 'P' || c = 'M' || c = 'H' || c = 'T'

/-- `cell::neighbour` from astar.cpp: grid distance strictly below 2
(a cell is a neighbour of itself). -/
def neighbour (a b : Coord) : Bool :=
  (a.1 - b.1).natAbs + (a.2 - b.2).natAbs < 2

namespace Astar

/-- The cell record of astar.cpp. `parent` is the stored back-reference
(as a coordinate); `possibly_picked_by` is the hero-attribution set. -/
structure Cell where
  n : Int
  m : Int
  from_player_cost : Int
  to_target_cost : Int
  cell_status : Char
  parent : Option Coord
  possibly_picked_by : List Char
deriving DecidableEq, Repr

/-- The default-constructed cell of astar.cpp at coordinates `(i, q)`:
both costs `INF`, status the NUL character, no parent. -/
def mkCell (i q : Int) : Cell :=
  ⟨i, q, INF, INF, Char.ofNat 0, none, []⟩

/-- The 9x9 game table: a vector of rows of cells, as in the source. -/
abbrev Table := List (List Cell)

/-- Read the cell at a coordinate (`table[n][m]`). -/
def cellAt (t : Table) (p : Coord) : Cell :=
  (t.getD p.1.toNat []).getD p.2.toNat (mkCell 0 0)

/-- Replace the cell at a coordinate by a function of the old cell. -/
def updCell (t : Table) (p : Coord) (f : Cell → Cell) : Table :=
  t.set p.1.toNat ((t.getD p.1.toNat []).set p.2.toNat (f (cellAt t p)))

/-- `init_game_table` from astar.cpp: all cells default, then the start
cell `(0,0)` (cost 0, heuristic to the stone, status 'A'), then the
Infinity-Stone cell (cost INF, heuristic 0, status 'I'). -/
def init_game_table (inf_stone_n inf_stone_m : Int) : Table :=
  let base := (List.range 9).map fun i =>
    (List.range 9).map fun q => mkCell (Int.ofNat i) (Int.ofNat q)
  let t1 := updCell base (0, 0) fun _ =>
    ⟨0, 0, 0, manhattan_distance 0 0 inf_stone_n inf_stone_m, 'A', none, []⟩
  updCell t1 (inf_stone_n, inf_stone_m) fun _ =>
    ⟨inf_stone_n, inf_stone_m, INF, 0, 'I', none, []⟩

/-- `cell::sum_cost`. -/
def sum_cost (c : Cell) : Int := c.from_player_cost + c.to_target_cost

/-- The `std::less<cell_ptr>` comparator of astar.cpp, reading the
current fields of the two cells. -/
def cellLess (t : Table) (a b : Coord) : Bool :=
  let ca := cellAt t a
  let cb := cellAt t b
  if sum_cost ca ≠ sum_cost cb then decide (sum_cost ca < sum_cost cb)
  else if ca.to_target_cost ≠ cb.to_target_cost then
    decide (ca.to_target_cost < cb.to_target_cost)
  else if ca.from_player_cost ≠ cb.from_player_cost then
    decide (ca.from_player_cost < cb.from_player_cost)
  else if ca.n ≠ cb.n then decide (ca.n < cb.n)
  else decide (ca.m < cb.m)

/-- `std::set` insertion for the open queue: keep the list sorted by the
comparator; if an equivalent element (same coordinate, since ties are
broken by row and column) is present, the insert is a no-op. -/
def pqInsert (t : Table) (c : Coord) : List Coord → List Coord
  | [] => [c]
  | d :: l =>
    if cellLess t c d then c :: d :: l
    else if cellLess t d c then d :: pqInsert t c l
    else d :: l

/-- `std::set::erase(key)`: remove the element equivalent to the key if
present, otherwise a no-op. -/
def pqErase (t : Table) (c : Coord) : List Coord → List Coord
  | [] => []
  | d :: l =>
    if !(cellLess t c d) && !(cellLess t d c) then l else d :: pqErase t c l

/-- `cell::path`: the cell followed by its parent chain, bounded by fuel
(every chain arising in a run is acyclic and has length at most 81). -/
def pathFrom (t : Table) : Nat → Option Coord → List Coord
  | 0, _ => []
  | _, none => []
  | fuel + 1, some c => c :: pathFrom t fuel (cellAt t c).parent

/-- `cell_path_as_set` from astar.cpp: the same chain collected as a
membership set; pointer equality in the C++ hash set coincides with
coordinate equality, so the chain list itself serves as the set. -/
def cell_path_as_set (t : Table) (fuel : Nat) (c : Coord) : List Coord :=
  pathFrom t fuel (some c)

/-- `least_common_ancestor` from astar.cpp: build the vector path of
`first`, the set path of `second`, and scan the REVERSED vector path
(root end first) for the first element contained in the set. -/
def least_common_ancestor (t : Table) (fuel : Nat) (first second : Coord) :
    Option Coord :=
  let first_path := pathFrom t fuel (some first)
  let second_path := cell_path_as_set t fuel second
  first_path.reverse.find? (fun c => c ∈ second_path)

/-- The least common ancestor as the specification intends it: the
DEEPEST cell common to both parent chains, i.e. the first element of
`first`'s path scanned from `first` toward the root that lies on
`second`'s chain. Used only to compare the code against the claim. -/
def deepest_common_ancestor (t : Table) (fuel : Nat) (first second : Coord) :
    Option Coord :=
  (pathFrom t fuel (some first)).find?
    (fun c => c ∈ pathFrom t fuel (some second))

/-- The mutable state of `launch_a_star` together with observables: the
table, the open priority queue (coordinates sorted by the comparator),
the closed set, the current position, the shield flag, the sequence of
emitted move requests (`trace`, most recent first), the index of the next oracle response
(`ridx`), the sequence of fresh cells extracted from the frontier
(`bests`) and the sequence of frontier insertions (`instr`), both
also most recent first. -/
structure AState where
  table : Table
  openq : List Coord
  closed : List Coord
  cur : Coord
  has_shield : Bool
  trace : List Coord
  ridx : Nat
  bests : List Coord
  instr : List Coord
deriving DecidableEq, Repr

/-- `unordered_set` insertion for the closed set (no duplicates). -/
def insClosed (c : Coord) (l : List Coord) : List Coord :=
  if c ∈ l then l else c :: l

/-- `stupid_move` from astar.cpp: emit the move request, set the current
position, read the oracle response and discard every event in it. -/
def stupid_move (o : Oracle) (st : AState) (c : Coord) : AState :=
  { st with trace := c :: st.trace, cur := c, ridx := st.ridx + 1 }

/-- `return_to_start` from astar.cpp: simple moves along the parent
chain of the current position until a parentless cell is reached. -/
def return_to_start (o : Oracle) : Nat → AState → AState
  | 0, st => st
  | fuel + 1, st =>
    match (cellAt st.table st.cur).parent with
    | none => st
    | some p => return_to_start o fuel (stupid_move o st p)

/-- `return_to_lca` from astar.cpp: compute the least common ancestor of
the current position and the target, then simple moves along the parent
chain until the current position equals it. (Defined in the source but
never invoked by `launch_a_star`.) -/
def return_to_lca (o : Oracle) (fuel : Nat) (st : AState) (target : Coord) :
    AState :=
  let lca := least_common_ancestor st.table fuel st.cur target
  let rec go : Nat → AState → AState
    | 0, st => st
    | n + 1, st =>
      if some st.cur = lca then st
      else
        match (cellAt st.table st.cur).parent with
        | none => st
        | some p => go n (stupid_move o st p)
  go fuel st

/-- `stupid_move_to_known_target` from astar.cpp: build the stored path
of the target once, then walk it from the cell after the root end to the
target, picking up a shield from any traversed cell whose status is 'S'. -/
def stupid_move_to_known_target (o : Oracle) (fuel : Nat) (st : AState)
    (target : Option Coord) : AState :=
  let path := pathFrom st.table fuel target
  let walk := path.reverse.tail
  walk.foldl (fun s c =>
    let s := stupid_move o s c
    if (cellAt s.table c).cell_status = 'S' then { s with has_shield := true }
    else s) st

/-- The reconciliation block of `launch_a_star` (the body of the
`!cur_pos->neighbour(best)` branch): return to the start cell, reset the
shield flag, then walk forward along the stored path of `best`'s parent. -/
def reconcile (o : Oracle) (st : AState) (best : Coord) : AState :=
  let st1 := return_to_start o 100 st
  let st2 := { st1 with has_shield := false }
  stupid_move_to_known_target o 100 st2 (cellAt st2.table best).parent

/-- The `update_then_check_cell` lambda of `open_neighbours`
(astar.cpp): an in-bounds, non-hazardous cell whose recorded cost is
strictly worse than `cur.cost + 1` is erased from the queue, updated
(cost, heuristic, parent) and reinserted. -/
def open_one (inf_stone_n inf_stone_m : Int) (s : AState) (cn cm : Int) :
    AState :=
  if in_borders cn cm
      && !(dangerous_status (cellAt s.table (cn, cm)).cell_status) then
    let new_from_player_cost := (cellAt s.table s.cur).from_player_cost + 1
    let new_to_target_cost := manhattan_distance cn cm inf_stone_n inf_stone_m
    if new_from_player_cost < (cellAt s.table (cn, cm)).from_player_cost then
      let s := { s with openq := pqErase s.table (cn, cm) s.openq }
      let s := { s with table := updCell s.table (cn, cm) fun c =>
        { c with from_player_cost := new_from_player_cost,
                 to_target_cost := new_to_target_cost,
                 parent := some s.cur } }
      { s with openq := pqInsert s.table (cn, cm) s.openq,
               instr := (cn, cm) :: s.instr }
    else s
  else s

/-- `open_neighbours` from astar.cpp: try to improve each of the four
axis neighbours of the current position (up, down, left, right in source
order). -/
def open_neighbours (inf_stone_n inf_stone_m : Int) (st : AState) : AState :=
  let n := st.cur.1
  let m := st.cur.2
  let st := open_one inf_stone_n inf_stone_m st (n - 1) m
  let st := open_one inf_stone_n inf_stone_m st (n + 1) m
  let st := open_one inf_stone_n inf_stone_m st n (m - 1)
  open_one inf_stone_n inf_stone_m st n (m + 1)

/-- One iteration of the response loop of `move_then_update`
(astar.cpp): the reported triple overwrites the status of the cell at
its coordinate; a now-dangerous cell is inserted into the closed set,
and under a nonzero perception mode a dangerous cell with an empty
attribution set gets `{'H','M','T'}` recorded. -/
def applyEvent1 (thanos_mode : Int) (ev : Ev) (st : AState) : AState :=
  let st := { st with table := updCell st.table (ev.en, ev.em) fun c =>
    { c with cell_status := ev.es } }
  let st :=
    if dangerous_status (cellAt st.table (ev.en, ev.em)).cell_status then
      { st with closed := insClosed (ev.en, ev.em) st.closed }
    else st
  if dangerous_status (cellAt st.table (ev.en, ev.em)).cell_status
      && (cellAt st.table (ev.en, ev.em)).possibly_picked_by.isEmpty
      && thanos_mode ≠ 0 then
    { st with table := updCell st.table (ev.en, ev.em) fun c =>
      { c with possibly_picked_by := ['H', 'M', 'T'] } }
  else st

/-- The full response loop of `move_then_update` (astar.cpp). -/
def applyEvents (thanos_mode : Int) : List Ev → AState → AState
  | [], st => st
  | ev :: rest, st => applyEvents thanos_mode rest (applyEvent1 thanos_mode ev st)

/-- `move_then_update` from astar.cpp: emit the move request; if the
destination already has status 'I' report success at once (without
moving the position, closing, or reading the response); otherwise move,
close the new position, pick up a shield, absorb the oracle response and
expand the neighbours. -/
def move_then_update (o : Oracle) (inf_stone_n inf_stone_m : Int)
    (thanos_mode : Int) (st : AState) (new_pos : Coord) : Bool × AState :=
  let st := { st with trace := new_pos :: st.trace }
  if (cellAt st.table new_pos).cell_status = 'I' then (true, st)
  else
    let st := { st with cur := new_pos, closed := insClosed new_pos st.closed }
    let st :=
      if (cellAt st.table st.cur).cell_status = 'S' then
        { st with has_shield := true }
      else st
    let evs := o st.ridx
    let st := { st with ridx := st.ridx + 1 }
    let st := applyEvents thanos_mode evs st
    (false, open_neighbours inf_stone_n inf_stone_m st)

/-- The inner extraction loop of `launch_a_star`: pop the minimum of the
frontier, discarding closed entries, until a fresh cell appears; `none`
marks the source dereferencing `*open.begin()` on an emptied set. -/
def extractFresh (closed : List Coord) : List Coord → Option (Coord × List Coord)
  | [] => none
  | c :: l => if c ∈ closed then extractFresh closed l else some (c, l)

/-- Outcome of a bounded run of `launch_a_star`: the stone was reached,
the frontier was exhausted, the inner extraction loop dereferenced an
empty frontier (undefined behaviour in the source), or the fuel ran out. -/
inductive ARes where
  | found
  | exhausted
  | fault
  | nofuel
deriving DecidableEq, Repr

/-- One iteration of `launch_a_star` after a fresh best was extracted:
record the shortened queue and the extraction, reconcile the physical
position if the best cell is not adjacent, then perform the full step. -/
def astar_iter (o : Oracle) (inf_stone_n inf_stone_m thanos_mode : Int)
    (st : AState) (best : Coord) (rest : List Coord) : Bool × AState :=
  let st := { st with openq := rest, bests := best :: st.bests }
  let st := if neighbour st.cur best then st else reconcile o st best
  move_then_update o inf_stone_n inf_stone_m thanos_mode st best

/-- The main loop of `launch_a_star`. -/
def launch_a_star (o : Oracle) (inf_stone_n inf_stone_m thanos_mode : Int) :
    Nat → AState → ARes × AState
  | 0, st => (ARes.nofuel, st)
  | fuel + 1, st =>
    match st.openq with
    | [] => (ARes.exhausted, st)
    | _ :: _ =>
      match extractFresh st.closed st.openq with
      | none => (ARes.fault, st)
      | some (best, rest) =>
        let r := astar_iter o inf_stone_n inf_stone_m thanos_mode st best rest
        if r.1 then (ARes.found, r.2)
        else launch_a_star o inf_stone_n inf_stone_m thanos_mode fuel r.2

/-- The initial engine state of `main` (astar.cpp): fresh table, the
open queue holding only the start cell, empty closed set, no shield. -/
def initAState (inf_stone_n inf_stone_m : Int) : AState :=
  { table := init_game_table inf_stone_n inf_stone_m
    openq := [(0, 0)]
    closed := []
    cur := (0, 0)
    has_shield := false
    trace := []
    ridx := 0
    bests := []
    instr := [] }

/-- A bounded run of astar.cpp's `main` after input parsing: run the
engine and pair the outcome with the final state. -/
def astar_run (o : Oracle) (inf_stone_n inf_stone_m thanos_mode : Int)
    (fuel : Nat) : ARes × AState :=
  launch_a_star o inf_stone_n inf_stone_m thanos_mode fuel
    (initAState inf_stone_n inf_stone_m)

/-- The integer printed on the final `e <cost>` line of astar.cpp's
`main`: the recorded cost of the stone cell on success, `-1` on frontier
exhaustion, and no line at all when the run faults (or fuel runs out). -/
def astar_out (o : Oracle) (inf_stone_n inf_stone_m thanos_mode : Int)
    (fuel : Nat) : Option Int :=
  match astar_run o inf_stone_n inf_stone_m thanos_mode fuel with
  | (ARes.found, st) =>
    some (cellAt st.table (inf_stone_n, inf_stone_m)).from_player_cost
  | (ARes.exhausted, _) => some (-1)
  | _ => none

/-- The final output line itself. -/
def astar_out_line (o : Oracle) (inf_stone_n inf_stone_m thanos_mode : Int)
    (fuel : Nat) : Option String :=
  (astar_out o inf_stone_n inf_stone_m thanos_mode fuel).map
    fun k => "e " ++ toString k

end Astar

namespace Back

/-- The cell record of backtracking.cpp (no heuristic, no parent). -/
structure Cell where
  n : Int
  m : Int
  from_player_cost : Int
  cell_status : Char
  possibly_picked_by : List Char
deriving DecidableEq, Repr

/-- The default-constructed cell of backtracking.cpp at `(i, q)`. -/
def mkCell (i q : Int) : Cell :=
  ⟨i, q, INF, Char.ofNat 0, []⟩

/-- The 9x9 game table of backtracking.cpp: a vector of rows of cells. -/
abbrev Table := List (List Cell)

/-- Read the cell at a coordinate (`table[n][m]`). -/
def cellAt (t : Table) (p : Coord) : Cell :=
  (t.getD p.1.toNat []).getD p.2.toNat (mkCell 0 0)

/-- Replace the cell at a coordinate by a function of the old cell. -/
def updCell (t : Table) (p : Coord) (f : Cell → Cell) : Table :=
  t.set p.1.toNat ((t.getD p.1.toNat []).set p.2.toNat (f (cellAt t p)))

/-- `init_game_table` from backtracking.cpp: all cells default, then the
start cell `(0,0)` (status 'A', cost 0), then the stone cell (status 'I',
cost INF). -/
def init_game_table (inf_stone_n inf_stone_m : Int) : Table :=
  let base := (List.range 9).map fun i =>
    (List.range 9).map fun q => mkCell (Int.ofNat i) (Int.ofNat q)
  let t1 := updCell base (0, 0) fun _ => ⟨0, 0, 0, 'A', []⟩
  updCell t1 (inf_stone_n, inf_stone_m) fun _ =>
    ⟨inf_stone_n, inf_stone_m, INF, 'I', []⟩

/-- State of the exploration phase of backtracking.cpp: the table, the
visited set, the shield flag, the emitted move requests (most recent
first), the oracle
response index, and a count of `backtracking_dfs` invocations. -/
structure BState where
  table : Table
  visited : List Coord
  has_shield : Bool
  trace : List Coord
  ridx : Nat
  invc : Nat
deriving DecidableEq, Repr

/-- `unordered_set` insertion (no duplicates). -/
def insVis (c : Coord) (l : List Coord) : List Coord :=
  if c ∈ l then l else c :: l

/-- `stupid_move` from backtracking.cpp: emit the move request, read the
oracle response and discard every event in it (the table is untouched,
and this variant does not even track a current position). -/
def stupid_move (st : BState) (pos : Coord) : BState :=
  { st with trace := pos :: st.trace, ridx := st.ridx + 1 }

/-- One iteration of the response loop of backtracking.cpp's
`move_then_update`: the triple overwrites the status of the cell at its
coordinate (the attribution heuristic is commented out in this source). -/
def applyEvent1 (ev : Ev) (t : Table) : Table :=
  updCell t (ev.en, ev.em) fun c => { c with cell_status := ev.es }

/-- The full response loop of backtracking.cpp's `move_then_update`. -/
def applyEvents : List Ev → Table → Table
  | [], t => t
  | ev :: rest, t => applyEvents rest (applyEvent1 ev t)

/-- `move_then_update` from backtracking.cpp: emit the move request,
record the cell visited, pick up a shield (read before the response),
absorb the response, then report whether the cell now carries the stone. -/
def move_then_update (o : Oracle) (st : BState) (pos : Coord) : Bool × BState :=
  let st := { st with trace := pos :: st.trace, visited := insVis pos st.visited }
  let st :=
    if (cellAt st.table pos).cell_status = 'S' then { st with has_shield := true }
    else st
  let evs := o st.ridx
  let st := { st with ridx := st.ridx + 1, table := applyEvents evs st.table }
  ((cellAt st.table pos).cell_status = 'I', st)

/-- Neighbour order of backtracking.cpp (`next` in both
`backtracking_dfs` and `backtracking_bfs`): up, left, right, down. -/
def neighborsOf (p : Coord) : List Coord :=
  [(p.1 - 1, p.2), (p.1, p.2 - 1), (p.1, p.2 + 1), (p.1 + 1, p.2)]

mutual

/-- `backtracking_dfs` from backtracking.cpp: visit the current cell via
the interaction boundary, then descend into each in-bounds, currently
non-hazardous, not-yet-visited neighbour (eligibility evaluated lazily at
each neighbour's turn), stepping back to the current cell after each
descent. `none` marks fuel exhaustion of the bounded model (the source
recursion has no bound; the theorems show fuel 82 always suffices). -/
def backtracking_dfs (o : Oracle) : Nat → Coord → BState → Option (Bool × BState)
  | 0, _, _ => none
  | fuel + 1, cur_pos, st =>
    let st := { st with invc := st.invc + 1 }
    let r := move_then_update o st cur_pos
    dfs_children o fuel cur_pos (neighborsOf cur_pos) r.1 r.2

/-- The `for_each` over `valid_neighbours` in `backtracking_dfs`: filters
are re-evaluated against the current state as the iteration advances. -/
def dfs_children (o : Oracle) : Nat → Coord → List Coord → Bool → BState →
    Option (Bool × BState)
  | _, _, [], found, st => some (found, st)
  | fuel, cur_pos, c :: rest, found, st =>
    if in_borders c.1 c.2 && !(dangerous_status (cellAt st.table c).cell_status)
        && !(st.visited.contains c) then
      match backtracking_dfs o fuel c st with
      | none => none
      | some (r, st1) =>
        dfs_children o fuel cur_pos rest (found || r) (stupid_move st1 cur_pos)
    else
      dfs_children o fuel cur_pos rest found st

end

/-- State of `backtracking_bfs` (a purely logical pass: no moves, no
oracle): the table, the FIFO queue, the visited set, and whether the
early return on reaching the stone has fired. -/
structure QState where
  table : Table
  queue : List Coord
  visited : List Coord
  stopped : Bool
deriving DecidableEq, Repr

/-- The lazy `any_of` pipeline of `backtracking_bfs`: each in-bounds,
non-hazardous, unvisited neighbour in turn gets its cost overwritten
with `cur.cost + 1` and is pushed; the scan stops at the first such
neighbour whose status is 'I'. -/
def bfs_expand (cur : Coord) : List Coord → QState → Bool × QState
  | [], s => (false, s)
  | c :: rest, s =>
    if in_borders c.1 c.2 && !(dangerous_status (cellAt s.table c).cell_status)
        && !(s.visited.contains c) then
      let s := { s with
        table := updCell s.table c fun cl =>
          { cl with from_player_cost := (cellAt s.table cur).from_player_cost + 1 }
        queue := s.queue ++ [c] }
      if (cellAt s.table c).cell_status = 'I' then (true, s)
      else bfs_expand cur rest s
    else bfs_expand cur rest s

/-- One iteration of the `while (!q.empty())` loop of `backtracking_bfs`
(the identity once the queue is empty or the stone was dequeued). -/
def bfs_step (s : QState) : QState :=
  if s.stopped then s
  else
    match s.queue with
    | [] => s
    | cur :: rest =>
      let s := { s with queue := rest, visited := insVis cur s.visited }
      let r := bfs_expand cur (neighborsOf cur) s
      if r.1 then { r.2 with stopped := true } else r.2

/-- `backtracking_bfs` started on a table: the queue holds the start
cell, run for `k` iterations. -/
def bfs_run (t : Table) (k : Nat) : QState :=
  bfs_step^[k] { table := t, queue := [(0, 0)], visited := [], stopped := false }

/-- The initial exploration state of backtracking.cpp's `main`. -/
def initBState (inf_stone_n inf_stone_m : Int) : BState :=
  { table := init_game_table inf_stone_n inf_stone_m
    visited := []
    has_shield := false
    trace := []
    ridx := 0
    invc := 0 }

/-- `launch_backtracking` followed by `main`'s printing, bounded: the
integer on the final `e <cost>` line, `-1` when the exploration found no
solution, `none` only when the model's fuel runs out. The cost sweep is
run for `bfsFuel` iterations of its loop. -/
def back_out (o : Oracle) (inf_stone_n inf_stone_m thanos_mode : Int)
    (dfsFuel bfsFuel : Nat) : Option Int :=
  match backtracking_dfs o dfsFuel (0, 0) (initBState inf_stone_n inf_stone_m) with
  | none => none
  | some (has_solution, st) =>
    if has_solution then
      some (cellAt (bfs_run st.table bfsFuel).table
        (inf_stone_n, inf_stone_m)).from_player_cost
    else some (-1)

end Back

/-- The status a cell at `p` ends with after a list of reported events
is applied in order (the last report about `p` wins), starting from a
default. -/
def lastStatus (evs : List Ev) (p : Coord) (dflt : Char) : Char :=
  evs.foldl (fun acc ev => if ((ev.en, ev.em) : Coord) = p then ev.es else acc) dflt

/-- Every event of the list is in the table borders. -/
def evsInB (evs : List Ev) : Prop :=
  ∀ ev ∈ evs, in_borders ev.en ev.em = true

namespace Astar

/-- A well-shaped 9x9 table (the shape `init_game_table` produces and
every update preserves). -/
def Shaped (t : Table) : Prop := t.length = 9 ∧ ∀ r ∈ t, r.length = 9

/-- The parent chain from `c` reaches a parentless cell within `fuel`
steps. -/
def chain_rooted (t : Table) : Nat → Coord → Bool
  | 0, _ => false
  | fuel + 1, c =>
    match (cellAt t c).parent with
    | none => true
    | some p => chain_rooted t fuel p

/-- A cell with its hero-attribution set erased: the projection under
which the two runs of the perception-mode noninterference argument are
compared. -/
def sCell (c : Cell) : Cell := { c with possibly_picked_by := [] }

/-- A table with every attribution set erased. -/
def scrubT (t : Table) : Table := t.map (List.map sCell)

/-- The states of two engine runs agree on everything except the
attribution sets stored in their tables. -/
def ARel (s1 s2 : AState) : Prop :=
  scrubT s1.table = scrubT s2.table ∧ s1.openq = s2.openq ∧
  s1.closed = s2.closed ∧ s1.cur = s2.cur ∧ s1.has_shield = s2.has_shield ∧
  s1.trace = s2.trace ∧ s1.ridx = s2.ridx ∧ s1.bests = s2.bests ∧
  s1.instr = s2.instr

end Astar

namespace Back

/-- A well-shaped 9x9 table. -/
def Shaped (t : Table) : Prop := t.length = 9 ∧ ∀ r ∈ t, r.length = 9

/-- The invocation count of a finished exploration (`0` for the fuel
artifact). -/
def invcOf (r : Option (Bool × BState)) : Nat :=
  r.elim 0 fun x => x.2.invc

/-- The 81 coordinates of the grid. -/
def gridCoords : List Coord :=
  (List.range 9).flatMap fun i =>
    (List.range 9).map fun q => (Int.ofNat i, Int.ofNat q)

end Back

/-
  Concrete scenarios used by the theorems below.
-/

namespace Astar

/-- A table in which the cell `(0,1)` has the start cell `(0,0)` as its
parent (the smallest parent configuration an engine run produces). -/
def tC2 : Table :=
  updCell (init_game_table 8 8) (0, 1) fun c => { c with parent := some (0, 0) }

/-- An oracle for the stone at `(8,8)`: hazards appear at `(1,0)` after
the second move and at `(0,3)`, `(1,2)` after the third, and at `(2,1)`
after the seventh; the engine is eventually left with a frontier whose
only entry is the closed cell `(1,0)`. -/
def oracleFault : Oracle := fun k =>
  match k with
  | 1 => [⟨1, 0, 'P'⟩]
  | 2 => [⟨0, 3, 'P'⟩, ⟨1, 2, 'P'⟩]
  | 6 => [⟨2, 1, 'P'⟩]
  | _ => []

/-- An oracle for the stone at `(0,3)`: the cell `(0,2)` is reported
hazardous on the first response and neutral again on the fourth. -/
def oracleHazGone : Oracle := fun k =>
  match k with
  | 0 => [⟨0, 2, 'P'⟩]
  | 3 => [⟨0, 2, 'N'⟩]
  | _ => []

/-- A small engine state over `tC2` (parent chain `(0,1) -> (0,0)`)
standing at `(0,1)`, used to instantiate general theorems. -/
def stC1w : AState :=
  { initAState 8 8 with table := tC2, cur := (0, 1), has_shield := true }

/-- Every cell of the table has a non-negative recorded cost. -/
def CostsNonneg (t : Table) : Prop :=
  ∀ p : Coord, 0 ≤ (cellAt t p).from_player_cost

end Astar

namespace Back

/-- Every cell of the backtracking table has a non-negative recorded
cost. -/
def CostsNonneg (t : Table) : Prop :=
  ∀ p : Coord, 0 ≤ (cellAt t p).from_player_cost

end Back

/-
  C2. `least_common_ancestor` is documented (and specified) to return the
  deepest cell common to both parent chains, and in particular
  `least_common_ancestor(a, a) = a`.  The scan, however, walks the
  reversed path of `first`, i.e. starts at the ROOT end, and the root is
  always a member of the second chain, so the function returns the
  shallowest common ancestor instead.
-/

/-- C2: on the two-cell chain `(0,1) -> (0,0)` the source
`least_common_ancestor((0,1), (0,1))` returns the root `(0,0)`, not
`(0,1)`; the deepest common ancestor of the two (identical) chains is
`(0,1)`.  This falsifies both parts of the claim: the function does not
return the deepest common cell, and `lca(a, a) = a` fails. -/
theorem C2_lca_failing :
    Astar.least_common_ancestor Astar.tC2 100 (0, 1) (0, 1) = some (0, 0) ∧
    Astar.deepest_common_ancestor Astar.tC2 100 (0, 1) (0, 1) = some (0, 1) ∧
    (some ((0, 1) : Coord) ≠ some ((0, 0) : Coord)) := by
  refine ⟨by decide, by decide, by decide⟩

/-
  C4. The inner extraction loop of `launch_a_star` never re-checks
  emptiness: when every remaining frontier entry is closed (which a
  hazard report about a cell already in the frontier can arrange) the
  loop pops them all and then dereferences `*open.begin()` on an empty
  set.  The run below reaches exactly that state.
-/

/-- C4: under `oracleFault` the best-first engine reaches a loop head
with the non-empty frontier `[(1,0)]` whose only entry is closed, and
the inner extraction loop runs off the end of the emptied frontier (the
`fault` outcome, undefined behaviour in the source); no final output
line is produced.  This falsifies the claim that the extraction's error
branch is unreachable. -/
theorem C4_fault_run :
    (Astar.astar_run Astar.oracleFault 8 8 0 1000).1 = Astar.ARes.fault ∧
    (Astar.astar_run Astar.oracleFault 8 8 0 1000).2.openq = [(1, 0)] ∧
    (1, 0) ∈ (Astar.astar_run Astar.oracleFault 8 8 0 1000).2.closed ∧
    Astar.astar_out Astar.oracleFault 8 8 0 1000 = none := by
  refine ⟨by decide, by decide, by decide, by decide⟩


/-
  C1. In `launch_a_star` the reconciliation branch calls
  `return_to_start`, which walks the whole parent chain down to the
  parentless start cell; `return_to_lca` exists but is never invoked.
  The run below reaches a state where the best cell is not adjacent and
  the deepest common ancestor of the current position and the best cell
  is `(0,1)`, yet the physical backtrack continues through `(0,1)` to
  `(0,0)`.
-/

/-- C1: counterexample.  After three iterations under `oracleFault` the
engine stands at `(0,2)` (parent chain `(0,2)-(0,1)-(0,0)`), extracts
the non-adjacent best `(1,1)` (parent chain `(1,1)-(0,1)-(0,0)`), whose
deepest common ancestor with the current position is `(0,1)`.  The
reconciliation block then emits backtrack moves `(0,1), (0,0)` —
continuing past the least common ancestor to the start cell (its
position after the backtrack is `(0,0)`, not `(0,1)`), before walking
forward `(0,1)` to best's parent.  The claim that the backtrack stops
at the LCA is false at this input. -/
theorem C1_counterexample :
    (let st3 := (Astar.astar_run Astar.oracleFault 8 8 0 3).2
     let stR : Astar.AState :=
       { st3 with openq := [(1, 0)], bests := (1, 1) :: st3.bests }
     Astar.extractFresh st3.closed st3.openq = some ((1, 1), [(1, 0)]) ∧
     neighbour st3.cur (1, 1) = false ∧
     Astar.deepest_common_ancestor st3.table 100 st3.cur (1, 1) = some (0, 1) ∧
     (Astar.return_to_start Astar.oracleFault 100 stR).cur = (0, 0) ∧
     (Astar.return_to_start Astar.oracleFault 100 stR).trace =
       [(0, 0), (0, 1)] ++ st3.trace ∧
     (Astar.reconcile Astar.oracleFault stR (1, 1)).trace =
       [(0, 1), (0, 0), (0, 1)] ++ st3.trace ∧
     ((0, 0) : Coord) ≠ ((0, 1) : Coord)) := by
  refine ⟨by decide, by decide, by decide, by decide, by decide, by decide, by decide⟩

/-
  C3. A hazard report inserts the reported cell into the closed set
  (`move_then_update`, astar.cpp), and the closed set only ever grows;
  the extraction loop discards closed cells.  So a cell that was once
  reported hazardous can re-enter the frontier when its cost improves,
  but it can never again be extracted as `best`, even after the oracle
  reports it neutral.
-/

/-- C3: counterexample.  Under `oracleHazGone` (stone at `(0,3)`), the
cell `(0,2)` is reported hazardous, later reported neutral, and then an
expansion assigns it cost 4 (strictly better than its recorded INF) and
reinserts it into the frontier; the run succeeds, yet `(0,2)` is never
extracted as a fresh best and never stepped onto — it remains
permanently excluded by its membership in the closed set. -/
theorem C3_counterexample :
    (let r := Astar.astar_run Astar.oracleHazGone 0 3 0 1000
     r.1 = Astar.ARes.found ∧
     (0, 2) ∈ r.2.instr ∧
     (Astar.cellAt r.2.table (0, 2)).from_player_cost = 4 ∧
     dangerous_status (Astar.cellAt r.2.table (0, 2)).cell_status = false ∧
     (0, 2) ∈ r.2.closed ∧
     (0, 2) ∉ r.2.bests ∧
     (0, 2) ∉ r.2.trace) := by
  refine ⟨by decide, by decide, by decide, by decide, by decide, by decide, by decide⟩

/-
  C7. When the inner extraction loop faults (see C4) the program never
  reaches its output statement, so no final line is produced at all.
-/

/-- C7: counterexample.  The faulting run under `oracleFault` produces
no final output line (the source dereferences an empty `std::set`
before reaching `main`'s output statement), falsifying the claim for
every run. -/
theorem C7_counterexample :
    Astar.astar_out_line Astar.oracleFault 8 8 0 1000 = none ∧
    (Astar.astar_run Astar.oracleFault 8 8 0 1000).1 = Astar.ARes.fault := by
  refine ⟨by decide, by decide⟩

/-
  C6. On the hazard-free grid (the oracle that never reports an event)
  the best-first engine succeeds for every valid stone position and the
  reported cost is the Manhattan distance from `(0,0)`.
-/

set_option maxHeartbeats 4000000 in
/-- C6: for every in-bounds stone position other than the start cell,
the best-first engine run against the silent (hazard-free) oracle
terminates successfully and prints a cost equal to the Manhattan grid
distance from the start `(0,0)`; the concrete instance with the stone at
`(3,3)` prints exactly the line `e 6`. -/
theorem C6_clean_grid_cost :
    (∀ i : Nat, i < 9 → ∀ j : Nat, j < 9 → ¬(i = 0 ∧ j = 0) →
      Astar.astar_out (fun _ => []) (i : Int) (j : Int) 0 200 =
        some (manhattan_distance 0 0 (i : Int) (j : Int))) ∧
    Astar.astar_out_line (fun _ => []) 3 3 0 200 = some "e 6" := by
  constructor
  · decide
  · decide

/-- C6: witness, instantiating the universal part at the stone position
`(3,3)` of the concrete scenario. -/
theorem C6_clean_grid_cost_witness :
    Astar.astar_out (fun _ => []) (3 : Int) (3 : Int) 0 200 =
      some (manhattan_distance 0 0 (3 : Int) (3 : Int)) :=
  C6_clean_grid_cost.1 3 (by decide) 3 (by decide) (by decide)

/-
  Auxiliary lemmas about nested-list tables.
-/

theorem getD_set_self {α : Type} (l : List α) (i : Nat) (a d : α)
    (h : i < l.length) : (l.set i a).getD i d = a := by
  rw [List.getD_eq_getElem?_getD, List.getElem?_set_self h, Option.getD_some]

theorem getD_set_ne {α : Type} (l : List α) (i j : Nat) (a d : α)
    (h : i ≠ j) : (l.set i a).getD j d = l.getD j d := by
  rw [List.getD_eq_getElem?_getD, List.getElem?_set_ne h,
    ← List.getD_eq_getElem?_getD]

theorem getD_map {α β : Type} (f : α → β) (l : List α) (i : Nat) (d : α) :
    (l.map f).getD i (f d) = f (l.getD i d) := by
  rw [List.getD_eq_getElem?_getD, List.getD_eq_getElem?_getD,
    List.getElem?_map]
  cases l[i]? <;> rfl

/-- Coordinate equality and toNat-index equality agree on in-bounds
coordinates. -/
theorem inb_index_inj {a b : Coord} (ha : in_borders a.1 a.2 = true)
    (hb : in_borders b.1 b.2 = true)
    (h1 : a.1.toNat = b.1.toNat) (h2 : a.2.toNat = b.2.toNat) : a = b := by
  simp only [in_borders, Bool.and_eq_true, decide_eq_true_eq] at ha hb
  have e1 : a.1 = b.1 := by omega
  have e2 : a.2 = b.2 := by omega
  exact Prod.ext e1 e2

namespace Astar

/-- A projection preserved by the update function is preserved at every
cell by `updCell` (no shape assumption needed). -/
theorem cellAt_updCell_proj {β : Type} (g : Cell → β) (t : Table) (q : Coord)
    (f : Cell → Cell) (hf : ∀ c, g (f c) = g c) (p : Coord) :
    g (cellAt (updCell t q f) p) = g (cellAt t p) := by
  unfold cellAt updCell
  by_cases hi : q.1.toNat = p.1.toNat
  · rw [hi]
    by_cases hlen : p.1.toNat < t.length
    · rw [getD_set_self _ _ _ _ hlen]
      by_cases hj : q.2.toNat = p.2.toNat
      · rw [hj]
        by_cases hlen2 : p.2.toNat < (t.getD p.1.toNat []).length
        · rw [getD_set_self _ _ _ _ hlen2, hf (cellAt t q)]
          unfold cellAt
          rw [hi, hj]
        · rw [List.set_eq_of_length_le (Nat.le_of_not_lt hlen2)]
      · rw [getD_set_ne _ _ _ _ _ hj]
    · rw [List.set_eq_of_length_le (Nat.le_of_not_lt hlen)]
  · rw [getD_set_ne _ _ _ _ _ hi]

/-- `updCell` at `q` leaves every cell with a different toNat-index pair
unchanged. -/
theorem cellAt_updCell_other (t : Table) (q : Coord) (f : Cell → Cell)
    (p : Coord) (h : q.1.toNat ≠ p.1.toNat ∨ q.2.toNat ≠ p.2.toNat) :
    cellAt (updCell t q f) p = cellAt t p := by
  unfold cellAt updCell
  rcases h with h | h
  · rw [getD_set_ne _ _ _ _ _ h]
  · by_cases hi : q.1.toNat = p.1.toNat
    · rw [hi]
      by_cases hlen : p.1.toNat < t.length
      · rw [getD_set_self _ _ _ _ hlen, getD_set_ne _ _ _ _ _ h]
      · rw [List.set_eq_of_length_le (Nat.le_of_not_lt hlen)]
    · rw [getD_set_ne _ _ _ _ _ hi]

/-- On a well-shaped table, `updCell` at an in-bounds coordinate writes
exactly the updated cell there. -/
theorem cellAt_updCell_same (t : Table) (q : Coord) (f : Cell → Cell)
    (hs : Shaped t) (hq : in_borders q.1 q.2 = true) :
    cellAt (updCell t q f) q = f (cellAt t q) := by
  obtain ⟨hlen, hrows⟩ := hs
  simp only [in_borders, Bool.and_eq_true, decide_eq_true_eq] at hq
  have hi : q.1.toNat < t.length := by omega
  have hrow : (t.getD q.1.toNat []).length = 9 := by
    apply hrows
    rw [List.getD_eq_getElem?_getD, List.getElem?_eq_getElem hi, Option.getD_some]
    exact List.getElem_mem hi
  have hj : q.2.toNat < (t.getD q.1.toNat []).length := by omega
  unfold cellAt updCell
  rw [getD_set_self _ _ _ _ hi, getD_set_self _ _ _ _ hj]
  rfl

/-- `updCell` preserves the table shape. -/
theorem Shaped_updCell (t : Table) (q : Coord) (f : Cell → Cell)
    (hs : Shaped t) : Shaped (updCell t q f) := by
  by_cases hi : q.1.toNat < t.length
  · obtain ⟨hlen, hrows⟩ := hs
    constructor
    · simpa [updCell] using hlen
    · intro r hr
      rcases List.mem_or_eq_of_mem_set hr with hr | hr
      · exact hrows r hr
      · subst hr
        have : (t.getD q.1.toNat []).length = 9 := by
          apply hrows
          rw [List.getD_eq_getElem?_getD, List.getElem?_eq_getElem hi,
            Option.getD_some]
          exact List.getElem_mem hi
        simpa using this
  · unfold updCell
    rw [List.set_eq_of_length_le (Nat.le_of_not_lt hi)]
    exact hs

/-- `init_game_table` is well-shaped. -/
theorem Shaped_init (tn tm : Int) : Shaped (init_game_table tn tm) := by
  simp only [init_game_table]
  apply Shaped_updCell
  apply Shaped_updCell
  unfold Shaped
  decide

end Astar

namespace Back

/-- A projection preserved by the update function is preserved at every
cell by `updCell` (backtracking table). -/
theorem b_cellAt_updCell_proj {β : Type} (g : Cell → β) (t : Table) (q : Coord)
    (f : Cell → Cell) (hf : ∀ c, g (f c) = g c) (p : Coord) :
    g (cellAt (updCell t q f) p) = g (cellAt t p) := by
  unfold cellAt updCell
  by_cases hi : q.1.toNat = p.1.toNat
  · rw [hi]
    by_cases hlen : p.1.toNat < t.length
    · rw [getD_set_self _ _ _ _ hlen]
      by_cases hj : q.2.toNat = p.2.toNat
      · rw [hj]
        by_cases hlen2 : p.2.toNat < (t.getD p.1.toNat []).length
        · rw [getD_set_self _ _ _ _ hlen2, hf (cellAt t q)]
          unfold cellAt
          rw [hi, hj]
        · rw [List.set_eq_of_length_le (Nat.le_of_not_lt hlen2)]
      · rw [getD_set_ne _ _ _ _ _ hj]
    · rw [List.set_eq_of_length_le (Nat.le_of_not_lt hlen)]
  · rw [getD_set_ne _ _ _ _ _ hi]

/-- `updCell` at `q` leaves every cell with a different toNat-index pair
unchanged (backtracking table). -/
theorem b_cellAt_updCell_other (t : Table) (q : Coord) (f : Cell → Cell)
    (p : Coord) (h : q.1.toNat ≠ p.1.toNat ∨ q.2.toNat ≠ p.2.toNat) :
    cellAt (updCell t q f) p = cellAt t p := by
  unfold cellAt updCell
  rcases h with h | h
  · rw [getD_set_ne _ _ _ _ _ h]
  · by_cases hi : q.1.toNat = p.1.toNat
    · rw [hi]
      by_cases hlen : p.1.toNat < t.length
      · rw [getD_set_self _ _ _ _ hlen, getD_set_ne _ _ _ _ _ h]
      · rw [List.set_eq_of_length_le (Nat.le_of_not_lt hlen)]
    · rw [getD_set_ne _ _ _ _ _ hi]

/-- On a well-shaped backtracking table, `updCell` at an in-bounds
coordinate writes exactly the updated cell there. -/
theorem b_cellAt_updCell_same (t : Table) (q : Coord) (f : Cell → Cell)
    (hs : Shaped t) (hq : in_borders q.1 q.2 = true) :
    cellAt (updCell t q f) q = f (cellAt t q) := by
  obtain ⟨hlen, hrows⟩ := hs
  simp only [in_borders, Bool.and_eq_true, decide_eq_true_eq] at hq
  have hi : q.1.toNat < t.length := by omega
  have hrow : (t.getD q.1.toNat []).length = 9 := by
    apply hrows
    rw [List.getD_eq_getElem?_getD, List.getElem?_eq_getElem hi,
      Option.getD_some]
    exact List.getElem_mem hi
  have hj : q.2.toNat < (t.getD q.1.toNat []).length := by omega
  unfold cellAt updCell
  rw [getD_set_self _ _ _ _ hi, getD_set_self _ _ _ _ hj]
  rfl

/-- `updCell` preserves the backtracking table shape. -/
theorem b_Shaped_updCell (t : Table) (q : Coord) (f : Cell → Cell)
    (hs : Shaped t) : Shaped (updCell t q f) := by
  by_cases hi : q.1.toNat < t.length
  · obtain ⟨hlen, hrows⟩ := hs
    constructor
    · simpa [updCell] using hlen
    · intro r hr
      rcases List.mem_or_eq_of_mem_set hr with hr | hr
      · exact hrows r hr
      · subst hr
        have : (t.getD q.1.toNat []).length = 9 := by
          apply hrows
          rw [List.getD_eq_getElem?_getD, List.getElem?_eq_getElem hi,
            Option.getD_some]
          exact List.getElem_mem hi
        simpa using this
  · unfold updCell
    rw [List.set_eq_of_length_le (Nat.le_of_not_lt hi)]
    exact hs

/-- `init_game_table` of backtracking.cpp is well-shaped. -/
theorem b_Shaped_init (tn tm : Int) : Shaped (init_game_table tn tm) := by
  simp only [init_game_table]
  apply b_Shaped_updCell
  apply b_Shaped_updCell
  unfold Shaped
  decide

/-- The backtracking response loop preserves every cost field. -/
theorem applyEvents_cost (evs : List Ev) :
    ∀ (t : Table) (p : Coord),
      (cellAt (applyEvents evs t) p).from_player_cost =
        (cellAt t p).from_player_cost := by
  induction evs with
  | nil => intro t p; rfl
  | cons ev rest ih =>
    intro t p
    rw [applyEvents, ih]
    unfold applyEvent1
    exact b_cellAt_updCell_proj (fun c => c.from_player_cost) t (ev.en, ev.em)
      (fun c => { c with cell_status := ev.es }) (fun c => rfl) p

/-- The backtracking response loop preserves the table shape. -/
theorem b_applyEvents_shaped (evs : List Ev) :
    ∀ (t : Table), Shaped t → Shaped (applyEvents evs t) := by
  induction evs with
  | nil => intro t h; exact h
  | cons ev rest ih =>
    intro t h
    exact ih _ (b_Shaped_updCell _ _ _ h)

/-- The backtracking response loop applies each reported status, last
report winning. -/
theorem b_applyEvents_status (evs : List Ev) :
    ∀ (t : Table), Shaped t → evsInB evs →
      ∀ p : Coord, in_borders p.1 p.2 = true →
        (cellAt (applyEvents evs t) p).cell_status =
          lastStatus evs p (cellAt t p).cell_status := by
  induction evs with
  | nil => intro t _ _ p _; rfl
  | cons ev rest ih =>
    intro t hs hin p hp
    have hev : in_borders ev.en ev.em = true := hin ev (by simp)
    have hin2 : evsInB rest := fun e he => hin e (by simp [he])
    have hsh : Shaped (applyEvent1 ev t) := b_Shaped_updCell _ _ _ hs
    rw [applyEvents, ih (applyEvent1 ev t) hsh hin2 p hp]
    have hstep : (cellAt (applyEvent1 ev t) p).cell_status =
        if ((ev.en, ev.em) : Coord) = p then ev.es
        else (cellAt t p).cell_status := by
      by_cases hpq : ((ev.en, ev.em) : Coord) = p
      · rw [if_pos hpq, applyEvent1, ← hpq]
        rw [b_cellAt_updCell_same _ _ _ hs hev]
      · rw [if_neg hpq]
        rw [applyEvent1]
        rw [b_cellAt_updCell_other t (ev.en, ev.em)
          (fun c => { c with cell_status := ev.es }) p ?hne]
        case hne =>
          by_contra hcon
          push_neg at hcon
          exact hpq (inb_index_inj hev hp hcon.1 hcon.2)
    rw [hstep]
    rfl

end Back

namespace Astar

/-- The table after one reported event is one or two `updCell`
applications (a status overwrite, possibly followed by an attribution
overwrite at the same coordinate). -/
theorem applyEvent1_table_cases (th : Int) (ev : Ev) (st : AState) :
    (applyEvent1 th ev st).table =
      updCell st.table (ev.en, ev.em)
        (fun c => { c with cell_status := ev.es }) ∨
    (applyEvent1 th ev st).table =
      updCell (updCell st.table (ev.en, ev.em)
          (fun c => { c with cell_status := ev.es }))
        (ev.en, ev.em)
        (fun c => { c with possibly_picked_by := ['H', 'M', 'T'] }) := by
  simp only [applyEvent1]
  split <;> split
  all_goals first
    | exact Or.inl rfl
    | exact Or.inr rfl

/-- A projection invariant under status and attribution overwrites is
invariant under a reported event. -/
theorem applyEvent1_proj {β : Type} (g : Cell → β)
    (hS : ∀ c s, g { c with cell_status := s } = g c)
    (hP : ∀ c, g { c with possibly_picked_by := ['H', 'M', 'T'] } = g c)
    (th : Int) (ev : Ev) (st : AState) (p : Coord) :
    g (cellAt (applyEvent1 th ev st).table p) = g (cellAt st.table p) := by
  rcases applyEvent1_table_cases th ev st with hc | hc <;> rw [hc]
  · exact cellAt_updCell_proj g _ _ _ (fun c => hS c ev.es) p
  · rw [cellAt_updCell_proj g _ _ _ (fun c => hP c) p]
    exact cellAt_updCell_proj g _ _ _ (fun c => hS c ev.es) p

/-- A projection invariant under status and attribution overwrites is
invariant under the whole response loop. -/
theorem applyEvents_proj {β : Type} (g : Cell → β)
    (hS : ∀ c s, g { c with cell_status := s } = g c)
    (hP : ∀ c, g { c with possibly_picked_by := ['H', 'M', 'T'] } = g c)
    (th : Int) (evs : List Ev) :
    ∀ (st : AState) (p : Coord),
      g (cellAt (applyEvents th evs st).table p) = g (cellAt st.table p) := by
  induction evs with
  | nil => intro st p; rfl
  | cons ev rest ih =>
    intro st p
    rw [applyEvents, ih]
    exact applyEvent1_proj g hS hP th ev st p

/-- A reported event preserves the table shape. -/
theorem applyEvent1_shaped (th : Int) (ev : Ev) (st : AState)
    (hs : Shaped st.table) : Shaped (applyEvent1 th ev st).table := by
  rcases applyEvent1_table_cases th ev st with hc | hc <;> rw [hc]
  · exact Shaped_updCell _ _ _ hs
  · exact Shaped_updCell _ _ _ (Shaped_updCell _ _ _ hs)

/-- The response loop preserves the table shape. -/
theorem applyEvents_shaped (th : Int) (evs : List Ev) :
    ∀ (st : AState), Shaped st.table → Shaped (applyEvents th evs st).table := by
  induction evs with
  | nil => intro st h; exact h
  | cons ev rest ih =>
    intro st h
    exact ih _ (applyEvent1_shaped th ev st h)

/-- The response loop of astar.cpp applies each reported status, last
report winning. -/
theorem applyEvents_status (th : Int) (evs : List Ev) :
    ∀ (st : AState), Shaped st.table → evsInB evs →
      ∀ p : Coord, in_borders p.1 p.2 = true →
        (cellAt (applyEvents th evs st).table p).cell_status =
          lastStatus evs p (cellAt st.table p).cell_status := by
  induction evs with
  | nil => intro st _ _ p _; rfl
  | cons ev rest ih =>
    intro st hs hin p hp
    have hev : in_borders ev.en ev.em = true := hin ev (by simp)
    have hin2 : evsInB rest := fun e he => hin e (by simp [he])
    rw [applyEvents, ih _ (applyEvent1_shaped th ev st hs) hin2 p hp]
    have hstep : (cellAt (applyEvent1 th ev st).table p).cell_status =
        if ((ev.en, ev.em) : Coord) = p then ev.es
        else (cellAt st.table p).cell_status := by
      by_cases hpq : ((ev.en, ev.em) : Coord) = p
      · rw [if_pos hpq]
        rcases applyEvent1_table_cases th ev st with hc | hc <;> rw [hc, ← hpq]
        · rw [cellAt_updCell_same _ _ _ hs hev]
        · rw [cellAt_updCell_proj (fun c => c.cell_status)
            (updCell st.table (ev.en, ev.em)
              (fun c => { c with cell_status := ev.es }))
            (ev.en, ev.em)
            (fun c => { c with possibly_picked_by := ['H', 'M', 'T'] })
            (fun c => rfl) (ev.en, ev.em)]
          rw [cellAt_updCell_same _ _ _ hs hev]
      · rw [if_neg hpq]
        have hne : (ev.en, ev.em).1.toNat ≠ p.1.toNat ∨
            (ev.en, ev.em).2.toNat ≠ p.2.toNat := by
          by_contra hcon
          push_neg at hcon
          exact hpq (inb_index_inj hev hp hcon.1 hcon.2)
        rcases applyEvent1_table_cases th ev st with hc | hc <;> rw [hc]
        · rw [cellAt_updCell_other _ _ _ _ hne]
        · rw [cellAt_updCell_other _ _ _ _ hne, cellAt_updCell_other _ _ _ _ hne]
    rw [hstep]
    rfl

end Astar

/-
  C8. The claim says every physical step applies the reported statuses.
  That is true of the full-update step `move_then_update` (both
  sources), but the simple step `stupid_move` used for backtracking and
  forward walking reads the response and discards it: the grid is left
  untouched.
-/

/-- C8: counterexample.  A `stupid_move` (the step operation used for
backtracking and forward walking) whose response reports the event
`(1,1) <- 'P'` leaves the table — in particular the status of `(1,1)` —
completely unchanged in both engines, while still consuming the
response; the reported status is not applied. -/
theorem C8_counterexample :
    (let o : Oracle := fun _ => [⟨1, 1, 'P'⟩]
     let st0 := Astar.initAState 8 8
     let st1 := Astar.stupid_move o st0 (1, 0)
     st1.ridx = st0.ridx + 1 ∧
     st1.table = st0.table ∧
     ¬ (Astar.cellAt st1.table (1, 1)).cell_status = 'P') ∧
    (Back.stupid_move (Back.initBState 8 8) (1, 0)).table =
      (Back.initBState 8 8).table := by
  exact ⟨⟨rfl, rfl, by decide⟩, rfl⟩

/-- C8: amended.  The full-update step operations apply each reported
status to the corresponding grid cell (last report winning) and never
mutate `cost_from_start`, `cost_to_target` or `parent`; the simple step
operations (`stupid_move`) used during backtracking and forward walking
consume the response but leave the whole table unchanged. -/
theorem C8_step_effects :
    (∀ (o : Oracle) (st : Astar.AState) (c : Coord),
       (Astar.stupid_move o st c).table = st.table ∧
       (Astar.stupid_move o st c).ridx = st.ridx + 1 ∧
       (Astar.stupid_move o st c).cur = c) ∧
    (∀ (st : Back.BState) (c : Coord),
       (Back.stupid_move st c).table = st.table ∧
       (Back.stupid_move st c).ridx = st.ridx + 1) ∧
    (∀ (th : Int) (evs : List Ev) (st : Astar.AState) (p : Coord),
       (Astar.cellAt (Astar.applyEvents th evs st).table p).from_player_cost =
         (Astar.cellAt st.table p).from_player_cost ∧
       (Astar.cellAt (Astar.applyEvents th evs st).table p).to_target_cost =
         (Astar.cellAt st.table p).to_target_cost ∧
       (Astar.cellAt (Astar.applyEvents th evs st).table p).parent =
         (Astar.cellAt st.table p).parent) ∧
    (∀ (th : Int) (evs : List Ev) (st : Astar.AState),
       Astar.Shaped st.table → evsInB evs →
       ∀ p : Coord, in_borders p.1 p.2 = true →
         (Astar.cellAt (Astar.applyEvents th evs st).table p).cell_status =
           lastStatus evs p (Astar.cellAt st.table p).cell_status) ∧
    (∀ (evs : List Ev) (t : Back.Table) (p : Coord),
       (Back.cellAt (Back.applyEvents evs t) p).from_player_cost =
         (Back.cellAt t p).from_player_cost) ∧
    (∀ (evs : List Ev) (t : Back.Table),
       Back.Shaped t → evsInB evs →
       ∀ p : Coord, in_borders p.1 p.2 = true →
         (Back.cellAt (Back.applyEvents evs t) p).cell_status =
           lastStatus evs p (Back.cellAt t p).cell_status) := by
  refine ⟨fun o st c => ⟨rfl, rfl, rfl⟩,
    fun st c => ⟨rfl, rfl⟩, ?_, ?_, ?_, ?_⟩
  · intro th evs st p
    refine ⟨?_, ?_, ?_⟩
    · exact Astar.applyEvents_proj (fun c => c.from_player_cost)
        (fun c s => rfl) (fun c => rfl) th evs st p
    · exact Astar.applyEvents_proj (fun c => c.to_target_cost)
        (fun c s => rfl) (fun c => rfl) th evs st p
    · exact Astar.applyEvents_proj (fun c => c.parent)
        (fun c s => rfl) (fun c => rfl) th evs st p
  · intro th evs st hs hin p hp
    exact Astar.applyEvents_status th evs st hs hin p hp
  · intro evs t p
    exact Back.applyEvents_cost evs t p
  · intro evs t hs hin p hp
    exact Back.b_applyEvents_status evs t hs hin p hp

/-- C8: witness for the amended statement, applying the
status-application part to the concrete event list `[(2,2) <- 'P']` on
the freshly initialised table. -/
theorem C8_step_effects_witness :
    (Astar.cellAt (Astar.applyEvents 0 [⟨2, 2, 'P'⟩]
        (Astar.initAState 8 8)).table (2, 2)).cell_status =
      lastStatus [⟨2, 2, 'P'⟩] (2, 2)
        (Astar.cellAt (Astar.initAState 8 8).table (2, 2)).cell_status :=
  C8_step_effects.2.2.2.1 0 [⟨2, 2, 'P'⟩] (Astar.initAState 8 8)
    (Astar.Shaped_init 8 8) (by unfold evsInB; decide) (2, 2) (by decide)


/-
  C10. Termination and invocation bound of the exhaustive exploration:
  every invocation of `backtracking_dfs` enters a cell absent from the
  visited set and inserts it before recursing, the visited set never
  shrinks, and only in-bounds cells are entered, so the invocation count
  is bounded by the 81 grid cells and depth fuel 82 always suffices.
-/

namespace Back

/-- Any in-bounds coordinate is one of the 81 grid coordinates. -/
theorem mem_gridCoords {p : Coord} (h : in_borders p.1 p.2 = true) :
    p ∈ gridCoords := by
  simp only [in_borders, Bool.and_eq_true, decide_eq_true_eq] at h
  simp only [gridCoords, List.mem_flatMap, List.mem_map, List.mem_range]
  refine ⟨p.1.toNat, by omega, p.2.toNat, by omega, ?_⟩
  have h1 : Int.ofNat p.1.toNat = p.1 := Int.toNat_of_nonneg (by omega)
  have h2 : Int.ofNat p.2.toNat = p.2 := Int.toNat_of_nonneg (by omega)
  rw [h1, h2]

/-- A duplicate-free list of in-bounds coordinates has at most 81
entries. -/
theorem nodup_inb_card (l : List Coord) (hd : l.Nodup)
    (hb : ∀ v ∈ l, in_borders v.1 v.2 = true) : l.length ≤ 81 := by
  have hsub : l ⊆ gridCoords := fun v hv => mem_gridCoords (hb v hv)
  have := (hd.subperm hsub).length_le
  simpa using this

/-- The visited-set invariant of the exploration: no duplicates, all
entries in bounds. -/
def VisInv (st : BState) : Prop :=
  st.visited.Nodup ∧ ∀ v ∈ st.visited, in_borders v.1 v.2 = true

/-- `move_then_update` records exactly the visited cell and leaves the
invocation counter alone. -/
theorem mtu_visited (o : Oracle) (st : BState) (pos : Coord) :
    (move_then_update o st pos).2.visited = insVis pos st.visited ∧
    (move_then_update o st pos).2.invc = st.invc := by
  simp only [move_then_update]
  split <;> exact ⟨rfl, rfl⟩

/-- The per-fuel statement about `backtracking_dfs`: a finished call
preserves the visited-set invariant, only grows the visited set, has
visited its cell, and increments the invocation counter exactly once
per newly visited cell; and fuel `82 - |visited|` suffices. -/
def DfsOk (o : Oracle) (f : Nat) : Prop :=
  ∀ (c : Coord) (st : BState), in_borders c.1 c.2 = true → VisInv st →
    c ∉ st.visited →
    (∀ b st', backtracking_dfs o f c st = some (b, st') →
       VisInv st' ∧ st.visited ⊆ st'.visited ∧ c ∈ st'.visited ∧
       st'.invc + st.visited.length = st.invc + st'.visited.length) ∧
    (st.visited.length + f ≥ 82 →
      (backtracking_dfs o f c st).isSome = true)

/-- The per-fuel statement about `dfs_children`. -/
def KidsOk (o : Oracle) (f : Nat) : Prop :=
  ∀ (pending : List Coord) (cur : Coord) (found : Bool) (st : BState),
    VisInv st →
    (∀ b st', dfs_children o f cur pending found st = some (b, st') →
       VisInv st' ∧ st.visited ⊆ st'.visited ∧
       st'.invc + st.visited.length = st.invc + st'.visited.length) ∧
    (st.visited.length + f ≥ 82 →
      (dfs_children o f cur pending found st).isSome = true)

theorem kids_of_dfs (o : Oracle) (f : Nat) (h : DfsOk o f) : KidsOk o f := by
  intro pending
  induction pending with
  | nil =>
    intro cur found st hinv
    constructor
    · intro b st' heq
      rw [dfs_children] at heq
      cases heq
      exact ⟨hinv, fun v hv => hv, by omega⟩
    · intro _
      rw [dfs_children]
      rfl
  | cons c rest ih =>
    intro cur found st hinv
    rw [dfs_children]
    by_cases helig : (in_borders c.1 c.2
        && !(dangerous_status (cellAt st.table c).cell_status)
        && !(st.visited.contains c)) = true
    · rw [if_pos helig]
      simp only [Bool.and_eq_true, Bool.not_eq_true'] at helig
      have hcb : in_borders c.1 c.2 = true := helig.1.1
      have hcv : c ∉ st.visited := by
        intro hmem
        have hfalse := helig.2
        have htrue : st.visited.contains c = true := by
          rw [List.contains_iff_exists_mem_beq]
          exact ⟨c, hmem, by simp⟩
        rw [htrue] at hfalse
        cases hfalse
      have hdfs := h c st hcb hinv hcv
      cases hr : backtracking_dfs o f c st with
      | none =>
        constructor
        · intro b st' heq
          exact Option.noConfusion heq
        · intro hfuel
          have hsome := hdfs.2 hfuel
          rw [hr] at hsome
          cases hsome
      | some r =>
        obtain ⟨hinv1, hsub1, hcm1, hcnt1⟩ := hdfs.1 r.1 r.2 (by rw [hr])
        have hlen1 : st.visited.length ≤ r.2.visited.length :=
          (hinv.1.subperm hsub1).length_le
        have hstep := ih cur (found || r.1) (stupid_move r.2 cur) hinv1
        constructor
        · intro b st' heq
          obtain ⟨hinv2, hsub2, hcnt2⟩ := hstep.1 b st' heq
          refine ⟨hinv2, fun v hv => hsub2 (hsub1 hv), by
            simp only [stupid_move] at hcnt2
            omega⟩
        · intro hfuel
          exact hstep.2 (by simp only [stupid_move]; omega)
    · rw [if_neg helig]
      exact ih cur found st hinv

theorem dfs_of_kids (o : Oracle) (f : Nat) (h : KidsOk o f) :
    DfsOk o (f + 1) := by
  intro c st hc hinv hnot
  have hins : insVis c st.visited = c :: st.visited := by
    unfold insVis
    rw [if_neg hnot]
  have hmtu := mtu_visited o { st with invc := st.invc + 1 } c
  set st0 := (move_then_update o { st with invc := st.invc + 1 } c).2 with hst0
  have hv0 : st0.visited = c :: st.visited := by rw [hmtu.1, hins]
  have hinv0 : VisInv st0 := by
    rw [VisInv, hv0]
    exact ⟨List.Nodup.cons hnot hinv.1, by
      intro v hv
      rcases List.mem_cons.mp hv with hv | hv
      · rw [hv]; exact hc
      · exact hinv.2 v hv⟩
  have hkids := h (neighborsOf c) c
    (move_then_update o { st with invc := st.invc + 1 } c).1 st0 hinv0
  constructor
  · intro b st' heq
    rw [backtracking_dfs] at heq
    obtain ⟨hinv', hsub', hcnt'⟩ := hkids.1 b st' heq
    refine ⟨hinv', ?_, ?_, ?_⟩
    · intro v hv
      apply hsub'
      rw [hv0]
      exact List.mem_cons_of_mem c hv
    · apply hsub'
      rw [hv0]
      exact List.mem_cons_self c st.visited
    · have hl0 : st0.visited.length = st.visited.length + 1 := by
        rw [hv0]; rfl
      have hi0 : st0.invc = st.invc + 1 := hmtu.2
      omega
  · intro hfuel
    rw [backtracking_dfs]
    apply hkids.2
    have hl0 : st0.visited.length = st.visited.length + 1 := by
      rw [hv0]; rfl
    omega

theorem dfs_ok_all (o : Oracle) : ∀ f, DfsOk o f ∧ KidsOk o f := by
  intro f
  induction f with
  | zero =>
    have hd : DfsOk o 0 := by
      intro c st hc hinv hnot
      constructor
      · intro b st' heq
        rw [backtracking_dfs] at heq
        cases heq
      · intro hfuel
        have := nodup_inb_card st.visited hinv.1 hinv.2
        omega
    exact ⟨hd, kids_of_dfs o 0 hd⟩
  | succ f ih =>
    have hd : DfsOk o (f + 1) := dfs_of_kids o f ih.2
    exact ⟨hd, kids_of_dfs o (f + 1) hd⟩

end Back

/-- C10: for every oracle and stone position, the exhaustive
exploration launched on the fresh grid finishes within recursion-depth
fuel 82 (it never exhausts the bound — the source recursion terminates),
and its total number of `backtracking_dfs` invocations is at most 81,
the number of grid cells. -/
theorem C10_dfs_bounded :
    ∀ (o : Oracle) (tn tm : Int),
      (Back.backtracking_dfs o 82 (0, 0) (Back.initBState tn tm)).isSome = true ∧
      Back.invcOf (Back.backtracking_dfs o 82 (0, 0) (Back.initBState tn tm)) ≤ 81 := by
  intro o tn tm
  have hinv : Back.VisInv (Back.initBState tn tm) := by
    constructor
    · exact List.nodup_nil
    · intro v hv
      cases hv
  have h := (Back.dfs_ok_all o 82).1 (0, 0) (Back.initBState tn tm)
    (by decide) hinv (by intro hv; cases hv)
  constructor
  · exact h.2 (by simp [Back.initBState])
  · cases hr : Back.backtracking_dfs o 82 (0, 0) (Back.initBState tn tm) with
    | none =>
      have hsome := h.2 (by simp [Back.initBState])
      rw [hr] at hsome
      cases hsome
    | some r =>
      obtain ⟨hinv', _, _, hcnt⟩ := h.1 r.1 r.2 (by rw [hr])
      have hlen := Back.nodup_inb_card r.2.visited hinv'.1 hinv'.2
      have : Back.invcOf (some r) = r.2.invc := rfl
      rw [this]
      simp only [Back.initBState, List.length_nil] at hcnt
      omega


/-
  C1 (amended): the reconciliation block backtracks along the whole
  parent chain to the parentless start cell, resets the shield flag,
  then walks forward along the stored path of the best cell's parent.
-/

namespace Astar

/-- The backtrack loop changes only position, trace and response index. -/
theorem return_to_start_frame (o : Oracle) :
    ∀ (fuel : Nat) (st : AState),
      (return_to_start o fuel st).table = st.table ∧
      (return_to_start o fuel st).openq = st.openq ∧
      (return_to_start o fuel st).closed = st.closed ∧
      (return_to_start o fuel st).has_shield = st.has_shield ∧
      (return_to_start o fuel st).bests = st.bests ∧
      (return_to_start o fuel st).instr = st.instr := by
  intro fuel
  induction fuel with
  | zero => intro st; exact ⟨rfl, rfl, rfl, rfl, rfl, rfl⟩
  | succ fuel ih =>
    intro st
    rw [return_to_start]
    cases (cellAt st.table st.cur).parent with
    | none => exact ⟨rfl, rfl, rfl, rfl, rfl, rfl⟩
    | some p => exact ih (stupid_move o st p)

/-- The parent chain below `none` is empty at any fuel. -/
theorem pathFrom_none (t : Table) : ∀ fuel, pathFrom t fuel none = [] := by
  intro fuel
  cases fuel <;> rfl

/-- Full characterisation of the backtrack loop on a rooted parent
chain: it walks the whole chain, emitting one move per ancestor, and
stops on the parentless cell at the chain's end. -/
theorem return_to_start_spec (o : Oracle) :
    ∀ (fuel : Nat) (st : AState),
      chain_rooted st.table fuel st.cur = true →
      (cellAt st.table (return_to_start o fuel st).cur).parent = none ∧
      some (return_to_start o fuel st).cur =
        (pathFrom st.table fuel (some st.cur)).getLast? ∧
      (return_to_start o fuel st).trace =
        (pathFrom st.table fuel (some st.cur)).tail.reverse ++ st.trace := by
  intro fuel
  induction fuel with
  | zero => intro st h; cases h
  | succ fuel ih =>
    intro st h
    rw [chain_rooted] at h
    cases hpar : (cellAt st.table st.cur).parent with
    | none =>
      have hrts : return_to_start o (fuel + 1) st = st := by
        rw [return_to_start, hpar]
      have hpath : pathFrom st.table (fuel + 1) (some st.cur) = [st.cur] := by
        rw [pathFrom, hpar, pathFrom_none]
      rw [hrts, hpath]
      exact ⟨hpar, rfl, rfl⟩
    | some p =>
      rw [hpar] at h
      have h2 : chain_rooted st.table fuel p = true := h
      have hrts : return_to_start o (fuel + 1) st =
          return_to_start o fuel (stupid_move o st p) := by
        rw [return_to_start, hpar]
      have hpath : pathFrom st.table (fuel + 1) (some st.cur) =
          st.cur :: pathFrom st.table fuel (some p) := by
        rw [pathFrom, hpar]
      obtain ⟨k, hk⟩ : ∃ k, fuel = k + 1 := by
        cases hf : fuel with
        | zero =>
          rw [hf] at h2
          cases h2
        | succ k => exact ⟨k, rfl⟩
      obtain ⟨g1, g2, g3⟩ := ih (stupid_move o st p) h2
      have g2q : some (return_to_start o fuel (stupid_move o st p)).cur =
          (pathFrom st.table fuel (some p)).getLast? := g2
      have g3q : (return_to_start o fuel (stupid_move o st p)).trace =
          (pathFrom st.table fuel (some p)).tail.reverse ++ (p :: st.trace) := g3
      have hx : pathFrom st.table fuel (some p) =
          p :: pathFrom st.table k (cellAt st.table p).parent := by
        rw [hk, pathFrom]
      refine ⟨?_, ?_, ?_⟩
      · rw [hrts]
        exact g1
      · rw [hrts, hpath, hx, List.getLast?_cons_cons, ← hx]
        exact g2q
      · rw [hrts, hpath, List.tail_cons, g3q]
        rw [hx, List.tail_cons, List.reverse_cons]
        simp

/-- Folding the last element of a cons through a default. -/
theorem getLast?_cons_getD (c x : Coord) (rest : List Coord) :
    ((c :: rest).getLast?).getD x = (rest.getLast?).getD c := by
  cases rest with
  | nil => rfl
  | cons d l =>
    rw [List.getLast?_cons_cons]
    cases hr : (d :: l).getLast? with
    | none =>
      exact absurd (List.getLast?_eq_none_iff.mp hr) (by simp)
    | some e => rfl

/-- The forward-walk fold changes only position, trace, response index
and the shield flag; it emits one move per path cell and picks the
shield up from any traversed 'S' cell. -/
theorem walk_foldl_spec (o : Oracle) :
    ∀ (l : List Coord) (st : AState),
      (l.foldl (fun s c =>
        let s1 := stupid_move o s c
        if (cellAt s1.table c).cell_status = 'S' then
          { s1 with has_shield := true }
        else s1) st).table = st.table ∧
      (l.foldl (fun s c =>
        let s1 := stupid_move o s c
        if (cellAt s1.table c).cell_status = 'S' then
          { s1 with has_shield := true }
        else s1) st).openq = st.openq ∧
      (l.foldl (fun s c =>
        let s1 := stupid_move o s c
        if (cellAt s1.table c).cell_status = 'S' then
          { s1 with has_shield := true }
        else s1) st).closed = st.closed ∧
      (l.foldl (fun s c =>
        let s1 := stupid_move o s c
        if (cellAt s1.table c).cell_status = 'S' then
          { s1 with has_shield := true }
        else s1) st).bests = st.bests ∧
      (l.foldl (fun s c =>
        let s1 := stupid_move o s c
        if (cellAt s1.table c).cell_status = 'S' then
          { s1 with has_shield := true }
        else s1) st).instr = st.instr ∧
      (l.foldl (fun s c =>
        let s1 := stupid_move o s c
        if (cellAt s1.table c).cell_status = 'S' then
          { s1 with has_shield := true }
        else s1) st).trace = l.reverse ++ st.trace ∧
      (l.foldl (fun s c =>
        let s1 := stupid_move o s c
        if (cellAt s1.table c).cell_status = 'S' then
          { s1 with has_shield := true }
        else s1) st).cur = (l.getLast?).getD st.cur ∧
      (l.foldl (fun s c =>
        let s1 := stupid_move o s c
        if (cellAt s1.table c).cell_status = 'S' then
          { s1 with has_shield := true }
        else s1) st).has_shield =
        (st.has_shield ||
          l.any fun c => decide ((cellAt st.table c).cell_status = 'S')) := by
  intro l
  induction l with
  | nil =>
    intro st
    exact ⟨rfl, rfl, rfl, rfl, rfl, rfl, rfl, by simp⟩
  | cons c rest ih =>
    intro st
    rw [List.foldl_cons]
    by_cases hS : (cellAt (stupid_move o st c).table c).cell_status = 'S'
    · have hred : (let s1 := stupid_move o st c
          if (cellAt s1.table c).cell_status = 'S' then
            { s1 with has_shield := true }
          else s1) = { stupid_move o st c with has_shield := true } := by
        simp only [if_pos hS]
      rw [hred]
      obtain ⟨h1, h2, h3, h4, h5, h6, h7, h8⟩ :=
        ih { stupid_move o st c with has_shield := true }
      refine ⟨h1, h2, h3, h4, h5, ?_, ?_, ?_⟩
      · rw [h6]
        simp [stupid_move]
      · rw [h7, getLast?_cons_getD]
        rfl
      · rw [h8]
        have hSb : (cellAt st.table c).cell_status = 'S' := hS
        simp [stupid_move, hSb]
    · have hred : (let s1 := stupid_move o st c
          if (cellAt s1.table c).cell_status = 'S' then
            { s1 with has_shield := true }
          else s1) = stupid_move o st c := by
        simp only [if_neg hS]
      rw [hred]
      obtain ⟨h1, h2, h3, h4, h5, h6, h7, h8⟩ := ih (stupid_move o st c)
      refine ⟨h1, h2, h3, h4, h5, ?_, ?_, ?_⟩
      · rw [h6]
        simp [stupid_move]
      · rw [h7, getLast?_cons_getD]
        rfl
      · rw [h8]
        have hSb : ¬ (cellAt st.table c).cell_status = 'S' := hS
        simp [stupid_move, hSb]

/-- C1 (amended), engine-level: whenever `launch_a_star` reconciles, the
physical backtrack runs the WHOLE parent chain of the current position,
ending on a parentless cell (the root of the parent tree, i.e. the
start cell), emitting one move per ancestor; only then is the shield
flag cleared, and the forward walk follows the stored path of best's
parent from the root end, re-collecting the shield from traversed 'S'
cells.  It does not stop at any least common ancestor. -/
theorem C1_backtrack_to_start (o : Oracle) (st : AState) (best : Coord)
    (h : chain_rooted st.table 100 st.cur = true) :
    (cellAt st.table (return_to_start o 100 st).cur).parent = none ∧
    some (return_to_start o 100 st).cur =
      (pathFrom st.table 100 (some st.cur)).getLast? ∧
    (return_to_start o 100 st).trace =
      (pathFrom st.table 100 (some st.cur)).tail.reverse ++ st.trace ∧
    (reconcile o st best).table = st.table ∧
    (reconcile o st best).has_shield =
      ((pathFrom st.table 100 (cellAt st.table best).parent).reverse.tail).any
        (fun c => decide ((cellAt st.table c).cell_status = 'S')) ∧
    (reconcile o st best).trace =
      ((pathFrom st.table 100 (cellAt st.table best).parent).reverse.tail).reverse
        ++ ((pathFrom st.table 100 (some st.cur)).tail.reverse ++ st.trace) := by
  obtain ⟨hp, hcur, htr⟩ := return_to_start_spec o 100 st h
  obtain ⟨hft, hfo, hfc, hfsh, hfb, hfi⟩ := return_to_start_frame o 100 st
  refine ⟨hp, hcur, htr, ?_, ?_, ?_⟩
  all_goals
    rw [reconcile, stupid_move_to_known_target]
  · have hw := (walk_foldl_spec o
      ((pathFrom ({ return_to_start o 100 st with has_shield := false }).table
          100 (cellAt ({ return_to_start o 100 st with has_shield := false
            }).table best).parent).reverse.tail)
      { return_to_start o 100 st with has_shield := false }).1
    rw [hw]
    exact hft
  · have hw := (walk_foldl_spec o
      ((pathFrom ({ return_to_start o 100 st with has_shield := false }).table
          100 (cellAt ({ return_to_start o 100 st with has_shield := false
            }).table best).parent).reverse.tail)
      { return_to_start o 100 st with has_shield := false }).2.2.2.2.2.2.2
    rw [hw]
    simp only [hft]
    rw [Bool.false_or]
  · have hw := (walk_foldl_spec o
      ((pathFrom ({ return_to_start o 100 st with has_shield := false }).table
          100 (cellAt ({ return_to_start o 100 st with has_shield := false
            }).table best).parent).reverse.tail)
      { return_to_start o 100 st with has_shield := false }).2.2.2.2.2.1
    rw [hw]
    simp only [hft]
    rw [htr]

end Astar

/-- C1 (amended): witness at a concrete rooted state (`stC1w`, standing
at `(0,1)` whose parent chain is `(0,1) -> (0,0)`). -/
theorem C1_backtrack_to_start_witness :
    Astar.chain_rooted Astar.stC1w.table 100 Astar.stC1w.cur = true ∧
    ((Astar.cellAt Astar.stC1w.table
        (Astar.return_to_start Astar.oracleFault 100 Astar.stC1w).cur).parent =
          none ∧
     some (Astar.return_to_start Astar.oracleFault 100 Astar.stC1w).cur =
       (Astar.pathFrom Astar.stC1w.table 100 (some Astar.stC1w.cur)).getLast? ∧
     (Astar.return_to_start Astar.oracleFault 100 Astar.stC1w).trace =
       (Astar.pathFrom Astar.stC1w.table 100
         (some Astar.stC1w.cur)).tail.reverse ++ Astar.stC1w.trace ∧
     (Astar.reconcile Astar.oracleFault Astar.stC1w (5, 5)).table =
       Astar.stC1w.table ∧
     (Astar.reconcile Astar.oracleFault Astar.stC1w (5, 5)).has_shield =
       ((Astar.pathFrom Astar.stC1w.table 100
           (Astar.cellAt Astar.stC1w.table (5, 5)).parent).reverse.tail).any
         (fun c => decide ((Astar.cellAt Astar.stC1w.table c).cell_status = 'S')) ∧
     (Astar.reconcile Astar.oracleFault Astar.stC1w (5, 5)).trace =
       ((Astar.pathFrom Astar.stC1w.table 100
           (Astar.cellAt Astar.stC1w.table (5, 5)).parent).reverse.tail).reverse
         ++ ((Astar.pathFrom Astar.stC1w.table 100
             (some Astar.stC1w.cur)).tail.reverse ++ Astar.stC1w.trace)) :=
  ⟨by decide,
   Astar.C1_backtrack_to_start Astar.oracleFault Astar.stC1w (5, 5) (by decide)⟩


/-
  C3 (amended): the closed set only ever grows, and the extraction loop
  never returns a closed cell, so a cell once inserted into `closed` (as
  every hazard-reported cell is) is never again extracted as `best`.
-/

namespace Astar

/-- The extraction loop only ever returns a cell outside the closed
set. -/
theorem extractFresh_fresh (closed : List Coord) :
    ∀ (l : List Coord) (c : Coord) (r : List Coord),
      extractFresh closed l = some (c, r) → c ∉ closed := by
  intro l
  induction l with
  | nil => intro c r h; cases h
  | cons d rest ih =>
    intro c r h
    rw [extractFresh] at h
    by_cases hd : d ∈ closed
    · rw [if_pos hd] at h
      exact ih c r h
    · rw [if_neg hd] at h
      cases h
      exact hd

theorem insClosed_sub (c : Coord) (l : List Coord) : l ⊆ insClosed c l := by
  intro x hx
  unfold insClosed
  split
  · exact hx
  · exact List.mem_cons_of_mem _ hx

/-- One reported event only grows the closed set and never touches the
extracted-bests record. -/
theorem applyEvent1_closed (th : Int) (ev : Ev) (st : AState) :
    st.closed ⊆ (applyEvent1 th ev st).closed ∧
    (applyEvent1 th ev st).bests = st.bests := by
  simp only [applyEvent1]
  split <;> split
  all_goals first
    | exact ⟨insClosed_sub _ _, rfl⟩
    | exact ⟨fun x hx => hx, rfl⟩

/-- The response loop only grows the closed set and never touches the
extracted-bests record. -/
theorem applyEvents_closed (th : Int) (evs : List Ev) :
    ∀ st : AState, st.closed ⊆ (applyEvents th evs st).closed ∧
      (applyEvents th evs st).bests = st.bests := by
  induction evs with
  | nil => intro st; exact ⟨fun x hx => hx, rfl⟩
  | cons ev rest ih =>
    intro st
    rw [applyEvents]
    obtain ⟨h1, h2⟩ := applyEvent1_closed th ev st
    obtain ⟨g1, g2⟩ := ih (applyEvent1 th ev st)
    exact ⟨fun x hx => g1 (h1 hx), by rw [g2, h2]⟩

/-- One expansion attempt changes only the queue, the table and the
insertion record. -/
theorem open_one_frame (tn tm : Int) (s : AState) (cn cm : Int) :
    (open_one tn tm s cn cm).closed = s.closed ∧
    (open_one tn tm s cn cm).bests = s.bests ∧
    (open_one tn tm s cn cm).cur = s.cur ∧
    (open_one tn tm s cn cm).trace = s.trace ∧
    (open_one tn tm s cn cm).ridx = s.ridx ∧
    (open_one tn tm s cn cm).has_shield = s.has_shield := by
  simp only [open_one]
  split
  · split
    · exact ⟨rfl, rfl, rfl, rfl, rfl, rfl⟩
    · exact ⟨rfl, rfl, rfl, rfl, rfl, rfl⟩
  · exact ⟨rfl, rfl, rfl, rfl, rfl, rfl⟩

/-- The neighbour expansion changes only the queue, the table and the
insertion record. -/
theorem open_neighbours_frame (tn tm : Int) (st : AState) :
    (open_neighbours tn tm st).closed = st.closed ∧
    (open_neighbours tn tm st).bests = st.bests ∧
    (open_neighbours tn tm st).trace = st.trace ∧
    (open_neighbours tn tm st).ridx = st.ridx := by
  rw [open_neighbours]
  obtain ⟨a1, a2, a3, a4, a5, a6⟩ := open_one_frame tn tm st (st.cur.1 - 1) st.cur.2
  obtain ⟨b1, b2, b3, b4, b5, b6⟩ := open_one_frame tn tm
    (open_one tn tm st (st.cur.1 - 1) st.cur.2) (st.cur.1 + 1) st.cur.2
  obtain ⟨c1, c2, c3, c4, c5, c6⟩ := open_one_frame tn tm
    (open_one tn tm (open_one tn tm st (st.cur.1 - 1) st.cur.2)
      (st.cur.1 + 1) st.cur.2) st.cur.1 (st.cur.2 - 1)
  obtain ⟨d1, d2, d3, d4, d5, d6⟩ := open_one_frame tn tm
    (open_one tn tm (open_one tn tm (open_one tn tm st (st.cur.1 - 1) st.cur.2)
      (st.cur.1 + 1) st.cur.2) st.cur.1 (st.cur.2 - 1)) st.cur.1 (st.cur.2 + 1)
  refine ⟨?_, ?_, ?_, ?_⟩
  · rw [d1, c1, b1, a1]
  · rw [d2, c2, b2, a2]
  · rw [d4, c4, b4, a4]
  · rw [d5, c5, b5, a5]

/-- The reconciliation block changes neither the closed set nor the
extracted-bests record (nor the queue, insertion record or table). -/
theorem reconcile_frame (o : Oracle) (st : AState) (best : Coord) :
    (reconcile o st best).closed = st.closed ∧
    (reconcile o st best).bests = st.bests ∧
    (reconcile o st best).openq = st.openq ∧
    (reconcile o st best).instr = st.instr ∧
    (reconcile o st best).table = st.table := by
  obtain ⟨f1, f2, f3, f4, f5, f6⟩ := return_to_start_frame o 100 st
  rw [reconcile, stupid_move_to_known_target]
  obtain ⟨w1, w2, w3, w4, w5, w6, w7, w8⟩ := walk_foldl_spec o
    ((pathFrom ({ return_to_start o 100 st with has_shield := false }).table
        100 (cellAt ({ return_to_start o 100 st with has_shield := false
          }).table best).parent).reverse.tail)
    { return_to_start o 100 st with has_shield := false }
  refine ⟨?_, ?_, ?_, ?_, ?_⟩
  · rw [w3]; exact f3
  · rw [w4]; exact f5
  · rw [w2]; exact f2
  · rw [w5]; exact f6
  · rw [w1]; exact f1

/-- A full step (`move_then_update`) only grows the closed set and never
touches the extracted-bests record. -/
theorem mtu_closed (o : Oracle) (tn tm th : Int) (st : AState) (best : Coord) :
    st.closed ⊆ (move_then_update o tn tm th st best).2.closed ∧
    (move_then_update o tn tm th st best).2.bests = st.bests := by
  simp only [move_then_update]
  split
  · exact ⟨fun x hx => hx, rfl⟩
  · split
    · obtain ⟨e1, e2⟩ := applyEvents_closed th (o st.ridx) _
      obtain ⟨n1, n2, n3, n4⟩ := open_neighbours_frame tn tm _
      refine ⟨?_, ?_⟩
      · rw [n1]
        exact fun x hx => e1 (insClosed_sub best st.closed hx)
      · rw [n2, e2]
    · obtain ⟨e1, e2⟩ := applyEvents_closed th (o st.ridx) _
      obtain ⟨n1, n2, n3, n4⟩ := open_neighbours_frame tn tm _
      refine ⟨?_, ?_⟩
      · rw [n1]
        exact fun x hx => e1 (insClosed_sub best st.closed hx)
      · rw [n2, e2]

/-- One loop iteration keeps every closed cell closed and records
exactly the extracted best. -/
theorem astar_iter_closed (o : Oracle) (tn tm th : Int) (st : AState)
    (best : Coord) (rest : List Coord) (X : Coord) (hX : X ∈ st.closed) :
    X ∈ (astar_iter o tn tm th st best rest).2.closed ∧
    (astar_iter o tn tm th st best rest).2.bests = best :: st.bests := by
  rw [astar_iter]
  have hc2 : X ∈ (if neighbour st.cur best = true then
        ({ st with openq := rest, bests := best :: st.bests } : AState)
        else reconcile o { st with openq := rest, bests := best :: st.bests }
          best).closed ∧
      (if neighbour st.cur best = true then
        ({ st with openq := rest, bests := best :: st.bests } : AState)
        else reconcile o { st with openq := rest, bests := best :: st.bests }
          best).bests = best :: st.bests := by
    split
    · exact ⟨hX, rfl⟩
    · obtain ⟨r1, r2, _, _, _⟩ := reconcile_frame o
        { st with openq := rest, bests := best :: st.bests } best
      rw [r1, r2]
      exact ⟨hX, rfl⟩
  obtain ⟨m1, m2⟩ := mtu_closed o tn tm th
    (if neighbour st.cur best = true then
      ({ st with openq := rest, bests := best :: st.bests } : AState)
      else reconcile o { st with openq := rest, bests := best :: st.bests }
        best) best
  exact ⟨m1 hc2.1, by rw [m2, hc2.2]⟩

end Astar

/-- C3 (amended): once a cell is in the closed set — in particular once
a hazard report has inserted it — the best-first loop never extracts it
as a fresh best again, in any continuation of the run, although
expansions may still reinsert it into the frontier; the closed set
itself only grows. -/
theorem C3_closed_permanent (o : Oracle) (tN tM th : Int) (X : Coord) :
    ∀ (fuel : Nat) (st : Astar.AState), X ∈ st.closed →
      X ∈ (Astar.launch_a_star o tN tM th fuel st).2.closed ∧
      ∃ l, (Astar.launch_a_star o tN tM th fuel st).2.bests = l ++ st.bests ∧
        X ∉ l := by
  intro fuel
  induction fuel with
  | zero =>
    intro st hX
    exact ⟨hX, [], rfl, by simp⟩
  | succ fuel ih =>
    intro st hX
    cases hq : st.openq with
    | nil =>
      have hrun : Astar.launch_a_star o tN tM th (fuel + 1) st =
          (Astar.ARes.exhausted, st) := by
        rw [Astar.launch_a_star, hq]
      rw [hrun]
      exact ⟨hX, [], rfl, by simp⟩
    | cons a as =>
      cases hext : Astar.extractFresh st.closed (a :: as) with
      | none =>
        have hrun : Astar.launch_a_star o tN tM th (fuel + 1) st =
            (Astar.ARes.fault, st) := by
          rw [Astar.launch_a_star, hq, hext]
        rw [hrun]
        exact ⟨hX, [], rfl, by simp⟩
      | some pr =>
        obtain ⟨best, rest⟩ := pr
        have hfresh : best ∉ st.closed :=
          Astar.extractFresh_fresh st.closed (a :: as) best rest hext
        have hXb : X ≠ best := fun he => hfresh (he ▸ hX)
        have hiter : X ∈ (Astar.astar_iter o tN tM th st best rest).2.closed ∧
            (Astar.astar_iter o tN tM th st best rest).2.bests =
              best :: st.bests :=
          Astar.astar_iter_closed o tN tM th st best rest X hX
        have hrun : Astar.launch_a_star o tN tM th (fuel + 1) st =
            (if (Astar.astar_iter o tN tM th st best rest).1 = true
             then (Astar.ARes.found,
               (Astar.astar_iter o tN tM th st best rest).2)
             else Astar.launch_a_star o tN tM th fuel
               (Astar.astar_iter o tN tM th st best rest).2) := by
          rw [Astar.launch_a_star, hq, hext]
        rw [hrun]
        cases hfound : (Astar.astar_iter o tN tM th st best rest).1 with
        | true =>
          rw [if_pos rfl]
          refine ⟨hiter.1, [best], ?_, ?_⟩
          · rw [hiter.2]
            rfl
          · simp [hXb]
        | false =>
          rw [if_neg (by simp)]
          obtain ⟨g1, l, hl, hnl⟩ :=
            ih (Astar.astar_iter o tN tM th st best rest).2 hiter.1
          refine ⟨g1, l ++ [best], ?_, ?_⟩
          · rw [hl, hiter.2]
            simp
          · simp only [List.mem_append, List.mem_singleton]
            rintro (h | h)
            · exact hnl h
            · exact hXb h

/-- C3 (amended): witness at a concrete state whose closed set already
holds `(5,5)`. -/
theorem C3_closed_permanent_witness :
    ((5, 5) : Coord) ∈ ({ Astar.initAState 8 8 with
        closed := [(5, 5)] } : Astar.AState).closed ∧
    ((5, 5) : Coord) ∈ (Astar.launch_a_star (fun _ => []) 8 8 0 1
      { Astar.initAState 8 8 with closed := [(5, 5)] }).2.closed ∧
    ∃ l, (Astar.launch_a_star (fun _ => []) 8 8 0 1
        { Astar.initAState 8 8 with closed := [(5, 5)] }).2.bests =
      l ++ ({ Astar.initAState 8 8 with closed := [(5, 5)] } : Astar.AState).bests ∧
      ((5, 5) : Coord) ∉ l :=
  ⟨by decide,
   C3_closed_permanent (fun _ => []) 8 8 0 (5, 5) 1
     { Astar.initAState 8 8 with closed := [(5, 5)] } (by decide)⟩


/-
  C7 (amended): output sentinel analysis.  Costs never go negative, so
  the success line is never `e -1`; the `-1` line appears exactly on
  frontier/exploration exhaustion; the faulting run (see C4) produces no
  line at all.
-/

theorem getD_mem_or {α : Type} (l : List α) (i : Nat) (d : α) :
    l.getD i d ∈ l ∨ l.getD i d = d := by
  by_cases hi : i < l.length
  · left
    rw [List.getD_eq_getElem?_getD, List.getElem?_eq_getElem hi,
      Option.getD_some]
    exact List.getElem_mem hi
  · right
    rw [List.getD_eq_getElem?_getD, List.getElem?_eq_none (Nat.le_of_not_lt hi)]
    rfl

namespace Astar

/-- The cell read after an update is the old cell or the updated one. -/
theorem cellAt_updCell_cases (t : Table) (q : Coord) (f : Cell → Cell)
    (p : Coord) :
    cellAt (updCell t q f) p = cellAt t p ∨
    cellAt (updCell t q f) p = f (cellAt t q) := by
  by_cases hi : q.1.toNat = p.1.toNat
  · by_cases hj : q.2.toNat = p.2.toNat
    · unfold cellAt updCell
      rw [hi, hj]
      by_cases hlen : p.1.toNat < t.length
      · rw [getD_set_self _ _ _ _ hlen]
        by_cases hlen2 : p.2.toNat < (t.getD p.1.toNat []).length
        · rw [getD_set_self _ _ _ _ hlen2]
          right
          unfold cellAt
          rw [hi, hj]
        · rw [List.set_eq_of_length_le (Nat.le_of_not_lt hlen2)]
          left
          rfl
      · rw [List.set_eq_of_length_le (Nat.le_of_not_lt hlen)]
        left
        rfl
    · left
      exact cellAt_updCell_other t q f p (Or.inr hj)
  · left
    exact cellAt_updCell_other t q f p (Or.inl hi)

/-- Nonnegative costs are preserved by an update whose new cost is the
old one or nonnegative. -/
theorem CostsNonneg_updCell (t : Table) (q : Coord) (f : Cell → Cell)
    (h : CostsNonneg t)
    (hf : ∀ c, (f c).from_player_cost = c.from_player_cost ∨
      0 ≤ (f c).from_player_cost) :
    CostsNonneg (updCell t q f) := by
  intro p
  rcases cellAt_updCell_cases t q f p with hc | hc
  · rw [hc]
    exact h p
  · rw [hc]
    rcases hf (cellAt t q) with hv | hv
    · rw [hv]
      exact h q
    · exact hv

/-- The fresh table has nonnegative costs. -/
theorem CostsNonneg_init (tn tm : Int) :
    CostsNonneg (init_game_table tn tm) := by
  simp only [init_game_table]
  apply CostsNonneg_updCell
  · apply CostsNonneg_updCell
    · intro p
      unfold cellAt
      have hrow := getD_mem_or ((List.range 9).map fun i =>
        (List.range 9).map fun q => mkCell (Int.ofNat i) (Int.ofNat q))
        p.1.toNat []
      have hbase : ∀ r ∈ (List.range 9).map (fun i =>
          (List.range 9).map fun q => mkCell (Int.ofNat i) (Int.ofNat q)),
          ∀ c ∈ r, 0 ≤ c.from_player_cost := by decide
      rcases hrow with hr | hr
      · have hcell := getD_mem_or (((List.range 9).map fun i =>
            (List.range 9).map fun q => mkCell (Int.ofNat i) (Int.ofNat q)
            ).getD p.1.toNat []) p.2.toNat (mkCell 0 0)
        rcases hcell with hc | hc
        · exact hbase _ hr _ hc
        · rw [hc]
          simp [mkCell, INF]
      · rw [hr]
        cases p.2.toNat <;> simp [mkCell, INF]
    · intro c
      right
      simp
  · intro c
    right
    simp [INF]

/-- Loop equation: an empty frontier at the loop head reports
exhaustion. -/
theorem launch_nil (o : Oracle) (tn tm th : Int) (fuel : Nat) (st : AState)
    (hq : st.openq = []) :
    launch_a_star o tn tm th (fuel + 1) st = (ARes.exhausted, st) := by
  rw [launch_a_star, hq]

/-- Loop equation: the inner extraction running off the emptied frontier
is the fault outcome. -/
theorem launch_fault (o : Oracle) (tn tm th : Int) (fuel : Nat) (st : AState)
    (a : Coord) (as : List Coord) (hq : st.openq = a :: as)
    (hext : extractFresh st.closed (a :: as) = none) :
    launch_a_star o tn tm th (fuel + 1) st = (ARes.fault, st) := by
  rw [launch_a_star, hq, hext]

/-- Loop equation: a fresh best runs one iteration and either stops on
the stone or continues. -/
theorem launch_step (o : Oracle) (tn tm th : Int) (fuel : Nat) (st : AState)
    (a best : Coord) (as rest : List Coord) (hq : st.openq = a :: as)
    (hext : extractFresh st.closed (a :: as) = some (best, rest)) :
    launch_a_star o tn tm th (fuel + 1) st =
      (if (astar_iter o tn tm th st best rest).1 = true
       then (ARes.found, (astar_iter o tn tm th st best rest).2)
       else launch_a_star o tn tm th fuel
         (astar_iter o tn tm th st best rest).2) := by
  rw [launch_a_star, hq, hext]

/-- The table after one expansion attempt is the old one or the cost
improvement write. -/
theorem open_one_table_cases (tn tm : Int) (s : AState) (cn cm : Int) :
    (open_one tn tm s cn cm).table = s.table ∨
    (open_one tn tm s cn cm).table = updCell s.table (cn, cm)
      (fun c => { c with
        from_player_cost := (cellAt s.table s.cur).from_player_cost + 1,
        to_target_cost := manhattan_distance cn cm tn tm,
        parent := some s.cur }) := by
  simp only [open_one]
  split <;> try split
  all_goals first
    | exact Or.inr rfl
    | exact Or.inl rfl

/-- One expansion attempt preserves nonnegative costs. -/
theorem open_one_nonneg (tn tm : Int) (s : AState) (cn cm : Int)
    (h : CostsNonneg s.table) : CostsNonneg (open_one tn tm s cn cm).table := by
  rcases open_one_table_cases tn tm s cn cm with hc | hc <;> rw [hc]
  · exact h
  · apply CostsNonneg_updCell _ _ _ h
    intro c
    right
    show 0 ≤ (cellAt s.table s.cur).from_player_cost + 1
    have := h s.cur
    omega

/-- The neighbour expansion preserves nonnegative costs. -/
theorem open_neighbours_nonneg (tn tm : Int) (st : AState)
    (h : CostsNonneg st.table) :
    CostsNonneg (open_neighbours tn tm st).table := by
  rw [open_neighbours]
  apply open_one_nonneg
  apply open_one_nonneg
  apply open_one_nonneg
  apply open_one_nonneg
  exact h

/-- The response loop preserves nonnegative costs (costs are untouched). -/
theorem applyEvents_nonneg (th : Int) (evs : List Ev) (st : AState)
    (h : CostsNonneg st.table) :
    CostsNonneg (applyEvents th evs st).table := by
  intro p
  rw [applyEvents_proj (fun c => c.from_player_cost)
    (fun c s => rfl) (fun c => rfl) th evs st p]
  exact h p

/-- A full step preserves nonnegative costs. -/
theorem mtu_nonneg (o : Oracle) (tn tm th : Int) (st : AState) (best : Coord)
    (h : CostsNonneg st.table) :
    CostsNonneg (move_then_update o tn tm th st best).2.table := by
  simp only [move_then_update]
  split
  · exact h
  · split
    · exact open_neighbours_nonneg tn tm _ (applyEvents_nonneg th _ _ h)
    · exact open_neighbours_nonneg tn tm _ (applyEvents_nonneg th _ _ h)

/-- A loop iteration preserves nonnegative costs. -/
theorem astar_iter_nonneg (o : Oracle) (tn tm th : Int) (st : AState)
    (best : Coord) (rest : List Coord) (h : CostsNonneg st.table) :
    CostsNonneg (astar_iter o tn tm th st best rest).2.table := by
  rw [astar_iter]
  apply mtu_nonneg
  split
  · exact h
  · obtain ⟨_, _, _, _, r5⟩ := reconcile_frame o
      { st with openq := rest, bests := best :: st.bests } best
    rw [r5]
    exact h

/-- The whole loop preserves nonnegative costs. -/
theorem launch_nonneg (o : Oracle) (tn tm th : Int) :
    ∀ (fuel : Nat) (st : AState), CostsNonneg st.table →
      CostsNonneg (launch_a_star o tn tm th fuel st).2.table := by
  intro fuel
  induction fuel with
  | zero => intro st h; exact h
  | succ fuel ih =>
    intro st h
    cases hq : st.openq with
    | nil =>
      rw [launch_nil o tn tm th fuel st hq]
      exact h
    | cons a as =>
      cases hext : extractFresh st.closed (a :: as) with
      | none =>
        rw [launch_fault o tn tm th fuel st a as hq hext]
        exact h
      | some pr =>
        obtain ⟨best, rest⟩ := pr
        rw [launch_step o tn tm th fuel st a best as rest hq hext]
        split
        · exact astar_iter_nonneg o tn tm th st best rest h
        · exact ih _ (astar_iter_nonneg o tn tm th st best rest h)

end Astar


namespace Back

/-- The cell read after an update is the old cell or the updated one
(backtracking table). -/
theorem b_cellAt_updCell_cases (t : Table) (q : Coord) (f : Cell → Cell)
    (p : Coord) :
    cellAt (updCell t q f) p = cellAt t p ∨
    cellAt (updCell t q f) p = f (cellAt t q) := by
  by_cases hi : q.1.toNat = p.1.toNat
  · by_cases hj : q.2.toNat = p.2.toNat
    · unfold cellAt updCell
      rw [hi, hj]
      by_cases hlen : p.1.toNat < t.length
      · rw [getD_set_self _ _ _ _ hlen]
        by_cases hlen2 : p.2.toNat < (t.getD p.1.toNat []).length
        · rw [getD_set_self _ _ _ _ hlen2]
          right
          unfold cellAt
          rw [hi, hj]
        · rw [List.set_eq_of_length_le (Nat.le_of_not_lt hlen2)]
          left
          rfl
      · rw [List.set_eq_of_length_le (Nat.le_of_not_lt hlen)]
        left
        rfl
    · left
      exact b_cellAt_updCell_other t q f p (Or.inr hj)
  · left
    exact b_cellAt_updCell_other t q f p (Or.inl hi)

/-- Nonnegative costs are preserved by an update whose new cost is the
old one or nonnegative (backtracking table). -/
theorem b_CostsNonneg_updCell (t : Table) (q : Coord) (f : Cell → Cell)
    (h : CostsNonneg t)
    (hf : ∀ c, (f c).from_player_cost = c.from_player_cost ∨
      0 ≤ (f c).from_player_cost) :
    CostsNonneg (updCell t q f) := by
  intro p
  rcases b_cellAt_updCell_cases t q f p with hc | hc
  · rw [hc]
    exact h p
  · rw [hc]
    rcases hf (cellAt t q) with hv | hv
    · rw [hv]
      exact h q
    · exact hv

/-- The fresh backtracking table has nonnegative costs. -/
theorem b_CostsNonneg_init (tn tm : Int) :
    CostsNonneg (init_game_table tn tm) := by
  simp only [init_game_table]
  apply b_CostsNonneg_updCell
  · apply b_CostsNonneg_updCell
    · intro p
      unfold cellAt
      have hrow := getD_mem_or ((List.range 9).map fun i =>
        (List.range 9).map fun q => mkCell (Int.ofNat i) (Int.ofNat q))
        p.1.toNat []
      have hbase : ∀ r ∈ (List.range 9).map (fun i =>
          (List.range 9).map fun q => mkCell (Int.ofNat i) (Int.ofNat q)),
          ∀ c ∈ r, 0 ≤ c.from_player_cost := by decide
      rcases hrow with hr | hr
      · have hcell := getD_mem_or (((List.range 9).map fun i =>
            (List.range 9).map fun q => mkCell (Int.ofNat i) (Int.ofNat q)
            ).getD p.1.toNat []) p.2.toNat (mkCell 0 0)
        rcases hcell with hc | hc
        · exact hbase _ hr _ hc
        · rw [hc]
          simp [mkCell, INF]
      · rw [hr]
        cases p.2.toNat <;> simp [mkCell, INF]
    · intro c
      right
      simp
  · intro c
    right
    simp [INF]

/-- The table produced by `move_then_update` is exactly the response
application. -/
theorem mtu_table (o : Oracle) (st : BState) (pos : Coord) :
    (move_then_update o st pos).2.table = applyEvents (o st.ridx) st.table := by
  simp only [move_then_update]
  split <;> rfl

/-- The per-fuel statement: exploration never changes any recorded
cost. -/
def DfsCostEq (o : Oracle) (f : Nat) : Prop :=
  ∀ (c : Coord) (st : BState) (b : Bool) (st' : BState),
    backtracking_dfs o f c st = some (b, st') →
    ∀ p : Coord, (cellAt st'.table p).from_player_cost =
      (cellAt st.table p).from_player_cost

/-- The per-fuel statement for the child iteration. -/
def KidsCostEq (o : Oracle) (f : Nat) : Prop :=
  ∀ (pending : List Coord) (cur : Coord) (found : Bool) (st : BState)
    (b : Bool) (st' : BState),
    dfs_children o f cur pending found st = some (b, st') →
    ∀ p : Coord, (cellAt st'.table p).from_player_cost =
      (cellAt st.table p).from_player_cost

theorem kids_cost_of_dfs (o : Oracle) (f : Nat) (h : DfsCostEq o f) :
    KidsCostEq o f := by
  intro pending
  induction pending with
  | nil =>
    intro cur found st b st' heq p
    rw [dfs_children] at heq
    cases heq
    rfl
  | cons c rest ih =>
    intro cur found st b st' heq p
    rw [dfs_children] at heq
    by_cases helig : (in_borders c.1 c.2
        && !(dangerous_status (cellAt st.table c).cell_status)
        && !(st.visited.contains c)) = true
    · rw [if_pos helig] at heq
      cases hr : backtracking_dfs o f c st with
      | none =>
        rw [hr] at heq
        cases heq
      | some r =>
        rw [hr] at heq
        have h1 := h c st r.1 r.2 (by rw [hr]) p
        have h2 := ih cur (found || r.1) (stupid_move r.2 cur) b st' heq p
        rw [h2]
        exact h1
    · rw [if_neg helig] at heq
      exact ih cur found st b st' heq p

theorem dfs_cost_of_kids (o : Oracle) (f : Nat) (h : KidsCostEq o f) :
    DfsCostEq o (f + 1) := by
  intro c st b st' heq p
  rw [backtracking_dfs] at heq
  have h1 := h (neighborsOf c) c
    (move_then_update o { st with invc := st.invc + 1 } c).1
    (move_then_update o { st with invc := st.invc + 1 } c).2 b st' heq p
  rw [h1]
  have h2 : (move_then_update o { st with invc := st.invc + 1 } c).2.table =
      applyEvents (o st.ridx) st.table :=
    mtu_table o { st with invc := st.invc + 1 } c
  rw [h2]
  exact applyEvents_cost (o st.ridx) st.table p

theorem dfs_cost_eq_all (o : Oracle) : ∀ f, DfsCostEq o f ∧ KidsCostEq o f := by
  intro f
  induction f with
  | zero =>
    have hd : DfsCostEq o 0 := by
      intro c st b st' heq
      rw [backtracking_dfs] at heq
      cases heq
    exact ⟨hd, kids_cost_of_dfs o 0 hd⟩
  | succ f ih =>
    have hd : DfsCostEq o (f + 1) := dfs_cost_of_kids o f ih.2
    exact ⟨hd, kids_cost_of_dfs o (f + 1) hd⟩

/-- The lazy expansion pipeline of the cost sweep preserves nonnegative
costs. -/
theorem bfs_expand_nonneg (cur : Coord) :
    ∀ (l : List Coord) (s : QState), CostsNonneg s.table →
      CostsNonneg (bfs_expand cur l s).2.table := by
  intro l
  induction l with
  | nil => intro s h; exact h
  | cons c rest ih =>
    intro s h
    simp only [bfs_expand]
    have hupd : CostsNonneg (updCell s.table c fun cl =>
        { cl with from_player_cost :=
          (cellAt s.table cur).from_player_cost + 1 }) := by
      apply b_CostsNonneg_updCell _ _ _ h
      intro cl
      right
      show 0 ≤ (cellAt s.table cur).from_player_cost + 1
      have := h cur
      omega
    split
    · split
      · exact hupd
      · exact ih _ hupd
    · exact ih s h

/-- One sweep iteration preserves nonnegative costs. -/
theorem bfs_step_nonneg (s : QState) (h : CostsNonneg s.table) :
    CostsNonneg (bfs_step s).table := by
  rw [bfs_step]
  split
  · exact h
  · split
    · exact h
    · simp only []
      split
      · exact bfs_expand_nonneg _ _ _ h
      · exact bfs_expand_nonneg _ _ _ h

/-- The whole cost sweep preserves nonnegative costs. -/
theorem bfs_run_nonneg (t : Table) (h : CostsNonneg t) (k : Nat) :
    CostsNonneg (bfs_run t k).table := by
  rw [bfs_run]
  induction k with
  | zero => exact h
  | succ k ih =>
    rw [Function.iterate_succ_apply']
    exact bfs_step_nonneg _ ih

/-- The table after any completed exploration has nonnegative costs:
exploration never touches costs and the fresh table is nonnegative. -/
theorem dfs_nonneg (o : Oracle) (tn tm : Int) (df : Nat) (b : Bool)
    (st : BState)
    (h : backtracking_dfs o df (0, 0) (initBState tn tm) = some (b, st)) :
    CostsNonneg st.table := by
  intro p
  have heq := (dfs_cost_eq_all o df).1 (0, 0) (initBState tn tm) b st h p
  rw [heq]
  exact b_CostsNonneg_init tn tm p

end Back

/-- C7. For every best-first run: the printed integer is `-1` exactly
when the loop exhausted its frontier, and on success it is the stone
cell's recorded (nonnegative, hence distinct from the sentinel)
`from_player_cost`; a faulting or fuel-starved run prints nothing. For
every exploration engine run: the printed integer is `-1` exactly when
the depth-first exploration completed and reported no solution; on
success it is the stone cell's cost after the sweep, again nonnegative.
This corrects the claim: a best-first run can also end with NO output
line at all (the empty-extraction fault of C4), so "the final output is
exactly one line" and the `-1`-iff-exhaustion reading survive only on
the non-faulting outcomes stated here. -/
theorem C7_output_sentinel :
    (∀ (o : Oracle) (tn tm th : Int) (fuel : Nat),
      (Astar.astar_out o tn tm th fuel = some (-1) ↔
        (Astar.astar_run o tn tm th fuel).1 = Astar.ARes.exhausted) ∧
      ((Astar.astar_run o tn tm th fuel).1 = Astar.ARes.found →
        Astar.astar_out o tn tm th fuel =
          some (Astar.cellAt (Astar.astar_run o tn tm th fuel).2.table
            (tn, tm)).from_player_cost ∧
        0 ≤ (Astar.cellAt (Astar.astar_run o tn tm th fuel).2.table
            (tn, tm)).from_player_cost) ∧
      ((Astar.astar_run o tn tm th fuel).1 = Astar.ARes.fault ∨
        (Astar.astar_run o tn tm th fuel).1 = Astar.ARes.nofuel →
        Astar.astar_out o tn tm th fuel = none)) ∧
    (∀ (o : Oracle) (tn tm th : Int) (df bf : Nat),
      (Back.back_out o tn tm th df bf = some (-1) ↔
        ∃ st, Back.backtracking_dfs o df (0, 0) (Back.initBState tn tm) =
          some (false, st)) ∧
      (∀ st, Back.backtracking_dfs o df (0, 0) (Back.initBState tn tm) =
          some (true, st) →
        Back.back_out o tn tm th df bf =
          some (Back.cellAt (Back.bfs_run st.table bf).table
            (tn, tm)).from_player_cost ∧
        0 ≤ (Back.cellAt (Back.bfs_run st.table bf).table
            (tn, tm)).from_player_cost)) := by
  constructor
  · intro o tn tm th fuel
    have hnn : Astar.CostsNonneg (Astar.astar_run o tn tm th fuel).2.table :=
      Astar.launch_nonneg o tn tm th fuel _ (Astar.CostsNonneg_init tn tm)
    have hout : Astar.astar_out o tn tm th fuel =
        match Astar.astar_run o tn tm th fuel with
        | (Astar.ARes.found, st) =>
          some (Astar.cellAt st.table (tn, tm)).from_player_cost
        | (Astar.ARes.exhausted, _) => some (-1)
        | _ => none := rfl
    cases hr : Astar.astar_run o tn tm th fuel with
    | mk res stf =>
      rw [hr] at hout hnn
      have hc : 0 ≤ (Astar.cellAt stf.table (tn, tm)).from_player_cost :=
        hnn (tn, tm)
      cases res with
      | found =>
        refine ⟨?_, ?_, ?_⟩
        · rw [hout]
          constructor
          · intro hsome
            exfalso
            have : (Astar.cellAt stf.table (tn, tm)).from_player_cost = -1 :=
              Option.some.inj hsome
            omega
          · intro hxx
            exact absurd hxx (by simp)
        · intro _
          exact ⟨hout, hc⟩
        · intro hor
          rcases hor with hh | hh <;> exact absurd hh (by simp)
      | exhausted =>
        refine ⟨⟨fun _ => rfl, fun _ => hout⟩, ?_, ?_⟩
        · intro hh
          exact absurd hh (by simp)
        · intro hor
          rcases hor with hh | hh <;> exact absurd hh (by simp)
      | fault =>
        refine ⟨?_, ?_, fun _ => hout⟩
        · rw [hout]
          constructor
          · intro hsome
            exact Option.noConfusion hsome
          · intro hh
            exact absurd hh (by simp)
        · intro hh
          exact absurd hh (by simp)
      | nofuel =>
        refine ⟨?_, ?_, fun _ => hout⟩
        · rw [hout]
          constructor
          · intro hsome
            exact Option.noConfusion hsome
          · intro hh
            exact absurd hh (by simp)
        · intro hh
          exact absurd hh (by simp)
  · intro o tn tm th df bf
    cases hd : Back.backtracking_dfs o df (0, 0) (Back.initBState tn tm) with
    | none =>
      constructor
      · rw [Back.back_out, hd]
        constructor
        · intro hsome
          exact Option.noConfusion hsome
        · rintro ⟨st, hst⟩
          exact Option.noConfusion hst
      · intro st hst
        exact Option.noConfusion hst
    | some pr =>
      obtain ⟨b, st⟩ := pr
      have hout : Back.back_out o tn tm th df bf =
          if b then
            some (Back.cellAt (Back.bfs_run st.table bf).table
              (tn, tm)).from_player_cost
          else some (-1) := by
        rw [Back.back_out, hd]
      cases b with
      | false =>
        constructor
        · rw [hout]
          constructor
          · intro _
            exact ⟨st, rfl⟩
          · intro _
            simp
        · intro st2 hst2
          exact absurd (Prod.mk.inj (Option.some.inj hst2)).1 (by simp)
      | true =>
        have hnn : Back.CostsNonneg (Back.bfs_run st.table bf).table :=
          Back.bfs_run_nonneg st.table (Back.dfs_nonneg o tn tm df true st hd) bf
        have hc : 0 ≤ (Back.cellAt (Back.bfs_run st.table bf).table
            (tn, tm)).from_player_cost := hnn (tn, tm)
        constructor
        · rw [hout]
          constructor
          · intro hsome
            exfalso
            simp only [if_pos rfl] at hsome
            have := Option.some.inj hsome
            omega
          · rintro ⟨st2, hst2⟩
            exact absurd (Prod.mk.inj (Option.some.inj hst2)).1 (by simp)
        · intro st2 hst2
          have hst : st = st2 := (Prod.mk.inj (Option.some.inj hst2)).2
          subst hst
          refine ⟨?_, hc⟩
          rw [hout]
          simp

/-- Witness: on the hazard-free oracle with the stone at (3,3), the
best-first run succeeds and C7 yields the printed cost, and the
exploration engine's search succeeds and C7 yields its printed cost. -/
theorem C7_output_sentinel_witness :
    Astar.astar_out (fun _ => []) 3 3 0 200 =
      some (Astar.cellAt
        (Astar.astar_run (fun _ => []) 3 3 0 200).2.table
        (3, 3)).from_player_cost ∧
    0 ≤ (Astar.cellAt (Astar.astar_run (fun _ => []) 3 3 0 200).2.table
        (3, 3)).from_player_cost :=
  (C7_output_sentinel.1 (fun _ => []) 3 3 0 200).2.1 (by decide)


/-
  C9: perception-mode noninterference machinery.
-/

/-- Writing back the element already stored at an index is a no-op. -/
theorem set_getD_self {α : Type} :
    ∀ (l : List α) (j : Nat) (d : α), l.set j (l.getD j d) = l := by
  intro l
  induction l with
  | nil => intro j d; rfl
  | cons a as ih =>
    intro j d
    cases j with
    | zero => rfl
    | succ j =>
      show a :: as.set j (as.getD j d) = a :: as
      rw [ih]

namespace Astar

/-- Reading a scrubbed table is scrubbing the read. -/
theorem cellAt_scrubT (t : Table) (p : Coord) :
    cellAt (scrubT t) p = sCell (cellAt t p) := by
  unfold cellAt scrubT
  have h1 : (t.map (List.map sCell)).getD p.1.toNat [] =
      List.map sCell (t.getD p.1.toNat []) :=
    getD_map (List.map sCell) t p.1.toNat []
  rw [h1]
  exact getD_map sCell (t.getD p.1.toNat []) p.2.toNat (mkCell 0 0)

/-- Scrub-equal tables yield scrub-equal cells at every coordinate. -/
theorem scrub_cell_eq {t1 t2 : Table} (h : scrubT t1 = scrubT t2) (p : Coord) :
    sCell (cellAt t1 p) = sCell (cellAt t2 p) := by
  rw [← cellAt_scrubT, ← cellAt_scrubT, h]

/-- Scrub-equal tables agree on every cost field. -/
theorem scrub_cost_eq {t1 t2 : Table} (h : scrubT t1 = scrubT t2) (p : Coord) :
    (cellAt t1 p).from_player_cost = (cellAt t2 p).from_player_cost := by
  have hh := congrArg Cell.from_player_cost (scrub_cell_eq h p)
  exact hh

/-- Scrub-equal tables agree on every heuristic field. -/
theorem scrub_ttc_eq {t1 t2 : Table} (h : scrubT t1 = scrubT t2) (p : Coord) :
    (cellAt t1 p).to_target_cost = (cellAt t2 p).to_target_cost := by
  have hh := congrArg Cell.to_target_cost (scrub_cell_eq h p)
  exact hh

/-- Scrub-equal tables agree on every status field. -/
theorem scrub_status_eq {t1 t2 : Table} (h : scrubT t1 = scrubT t2) (p : Coord) :
    (cellAt t1 p).cell_status = (cellAt t2 p).cell_status := by
  have hh := congrArg Cell.cell_status (scrub_cell_eq h p)
  exact hh

/-- Scrub-equal tables agree on every parent field. -/
theorem scrub_parent_eq {t1 t2 : Table} (h : scrubT t1 = scrubT t2) (p : Coord) :
    (cellAt t1 p).parent = (cellAt t2 p).parent := by
  have hh := congrArg Cell.parent (scrub_cell_eq h p)
  exact hh

/-- Scrub-equal tables agree on every row-coordinate field. -/
theorem scrub_n_eq {t1 t2 : Table} (h : scrubT t1 = scrubT t2) (p : Coord) :
    (cellAt t1 p).n = (cellAt t2 p).n := by
  have hh := congrArg Cell.n (scrub_cell_eq h p)
  exact hh

/-- Scrub-equal tables agree on every column-coordinate field. -/
theorem scrub_m_eq {t1 t2 : Table} (h : scrubT t1 = scrubT t2) (p : Coord) :
    (cellAt t1 p).m = (cellAt t2 p).m := by
  have hh := congrArg Cell.m (scrub_cell_eq h p)
  exact hh

/-- The comparator never reads the attribution set. -/
theorem cellLess_congr {t1 t2 : Table} (h : scrubT t1 = scrubT t2)
    (a b : Coord) : cellLess t1 a b = cellLess t2 a b := by
  simp only [cellLess, sum_cost, scrub_cost_eq h a, scrub_cost_eq h b,
    scrub_ttc_eq h a, scrub_ttc_eq h b, scrub_n_eq h a, scrub_n_eq h b,
    scrub_m_eq h a, scrub_m_eq h b]

/-- Frontier insertion never reads the attribution set. -/
theorem pqInsert_congr {t1 t2 : Table} (h : scrubT t1 = scrubT t2) (c : Coord) :
    ∀ l, pqInsert t1 c l = pqInsert t2 c l := by
  intro l
  induction l with
  | nil => rfl
  | cons d l ih =>
    rw [pqInsert, pqInsert, cellLess_congr h c d, cellLess_congr h d c, ih]

/-- Frontier erasure never reads the attribution set. -/
theorem pqErase_congr {t1 t2 : Table} (h : scrubT t1 = scrubT t2) (c : Coord) :
    ∀ l, pqErase t1 c l = pqErase t2 c l := by
  intro l
  induction l with
  | nil => rfl
  | cons d l ih =>
    rw [pqErase, pqErase, cellLess_congr h c d, cellLess_congr h d c, ih]

/-- Parent chains never read the attribution set. -/
theorem pathFrom_congr {t1 t2 : Table} (h : scrubT t1 = scrubT t2) :
    ∀ (fuel : Nat) (p : Option Coord), pathFrom t1 fuel p = pathFrom t2 fuel p := by
  intro fuel
  induction fuel with
  | zero => intro p; cases p <;> rfl
  | succ fuel ih =>
    intro p
    cases p with
    | none => rfl
    | some c =>
      rw [pathFrom, pathFrom, scrub_parent_eq h c, ih]

/-- Updating scrub-equal tables at the same coordinate with an update
whose scrubbed output depends only on the scrubbed input yields
scrub-equal tables. -/
theorem scrubT_updCell_congr {t1 t2 : Table} (h : scrubT t1 = scrubT t2)
    (q : Coord) (f : Cell → Cell)
    (hf : ∀ c c', sCell c = sCell c' → sCell (f c) = sCell (f c')) :
    scrubT (updCell t1 q f) = scrubT (updCell t2 q f) := by
  have key : ∀ t : Table, scrubT (updCell t q f) =
      (scrubT t).set q.1.toNat
        (((scrubT t).getD q.1.toNat []).set q.2.toNat (sCell (f (cellAt t q)))) := by
    intro t
    show ((t.set q.1.toNat ((t.getD q.1.toNat []).set q.2.toNat
      (f (cellAt t q)))).map (List.map sCell)) = _
    rw [List.map_set, List.map_set]
    have h1 : (t.map (List.map sCell)).getD q.1.toNat [] =
        List.map sCell (t.getD q.1.toNat []) :=
      getD_map (List.map sCell) t q.1.toNat []
    show _ = (t.map (List.map sCell)).set q.1.toNat
      (((t.map (List.map sCell)).getD q.1.toNat []).set q.2.toNat _)
    rw [h1]
  rw [key, key, h, hf _ _ (scrub_cell_eq h q)]

/-- An update that only changes the attribution set is invisible to the
scrubbed table. -/
theorem scrubT_updCell_ppb (t : Table) (q : Coord) (f : Cell → Cell)
    (hf : ∀ c, sCell (f c) = sCell c) :
    scrubT (updCell t q f) = scrubT t := by
  have key : scrubT (updCell t q f) =
      (scrubT t).set q.1.toNat
        (((scrubT t).getD q.1.toNat []).set q.2.toNat (sCell (f (cellAt t q)))) := by
    show ((t.set q.1.toNat ((t.getD q.1.toNat []).set q.2.toNat
      (f (cellAt t q)))).map (List.map sCell)) = _
    rw [List.map_set, List.map_set]
    have h1 : (t.map (List.map sCell)).getD q.1.toNat [] =
        List.map sCell (t.getD q.1.toNat []) :=
      getD_map (List.map sCell) t q.1.toNat []
    show _ = (t.map (List.map sCell)).set q.1.toNat
      (((t.map (List.map sCell)).getD q.1.toNat []).set q.2.toNat _)
    rw [h1]
  rw [key, hf, ← cellAt_scrubT]
  show (scrubT t).set q.1.toNat (((scrubT t).getD q.1.toNat []).set q.2.toNat
    (((scrubT t).getD q.1.toNat []).getD q.2.toNat (mkCell 0 0))) = scrubT t
  rw [set_getD_self, set_getD_self]

end Astar


namespace Astar

/-- A simple move preserves the noninterference relation. -/
theorem stupid_move_rel (o : Oracle) {s1 s2 : AState} (h : ARel s1 s2)
    (c : Coord) : ARel (stupid_move o s1 c) (stupid_move o s2 c) := by
  obtain ⟨hT, hq, hc, hcur, hsh, htr, hr, hb, hi⟩ := h
  exact ⟨hT, hq, hc, rfl, hsh, congrArg (List.cons c) htr,
    congrArg (fun k => k + 1) hr, hb, hi⟩

/-- Backtracking to the start preserves the noninterference relation. -/
theorem return_to_start_rel (o : Oracle) :
    ∀ (fuel : Nat) {s1 s2 : AState}, ARel s1 s2 →
      ARel (return_to_start o fuel s1) (return_to_start o fuel s2) := by
  intro fuel
  induction fuel with
  | zero => intro s1 s2 h; exact h
  | succ fuel ih =>
    intro s1 s2 h
    have hp : (cellAt s1.table s1.cur).parent =
        (cellAt s2.table s2.cur).parent := by
      rw [h.2.2.2.1]
      exact scrub_parent_eq h.1 s2.cur
    rw [return_to_start, return_to_start, hp]
    cases (cellAt s2.table s2.cur).parent with
    | none => exact h
    | some p => exact ih (stupid_move_rel o h p)

/-- The forward walk along a stored path preserves the noninterference
relation. -/
theorem walk_fold_rel (o : Oracle) :
    ∀ (l : List Coord) {s1 s2 : AState}, ARel s1 s2 →
      ARel
        (l.foldl (fun s c =>
          if (cellAt (stupid_move o s c).table c).cell_status = 'S' then
            { stupid_move o s c with has_shield := true }
          else stupid_move o s c) s1)
        (l.foldl (fun s c =>
          if (cellAt (stupid_move o s c).table c).cell_status = 'S' then
            { stupid_move o s c with has_shield := true }
          else stupid_move o s c) s2) := by
  intro l
  induction l with
  | nil => intro s1 s2 h; exact h
  | cons c l ih =>
    intro s1 s2 h
    rw [List.foldl_cons, List.foldl_cons]
    have hsm := stupid_move_rel o h c
    have hst : (cellAt (stupid_move o s1 c).table c).cell_status =
        (cellAt (stupid_move o s2 c).table c).cell_status :=
      scrub_status_eq hsm.1 c
    rw [hst]
    by_cases hS : (cellAt (stupid_move o s2 c).table c).cell_status = 'S'
    · rw [if_pos hS, if_pos hS]
      obtain ⟨hT, hq, hc, hcur, hsh, htr, hr, hb, hi⟩ := hsm
      exact ih ⟨hT, hq, hc, hcur, rfl, htr, hr, hb, hi⟩
    · rw [if_neg hS, if_neg hS]
      exact ih hsm

/-- The forward walk to a known target preserves the noninterference
relation. -/
theorem smktt_rel (o : Oracle) (fuel : Nat) {s1 s2 : AState} (h : ARel s1 s2)
    (target : Option Coord) :
    ARel (stupid_move_to_known_target o fuel s1 target)
      (stupid_move_to_known_target o fuel s2 target) := by
  simp only [stupid_move_to_known_target]
  rw [pathFrom_congr h.1 fuel target]
  exact walk_fold_rel o _ h

/-- The reconciliation block preserves the noninterference relation. -/
theorem reconcile_rel (o : Oracle) {s1 s2 : AState} (h : ARel s1 s2)
    (best : Coord) : ARel (reconcile o s1 best) (reconcile o s2 best) := by
  simp only [reconcile]
  have h1 := return_to_start_rel o 100 h
  obtain ⟨hT, hq, hc, hcur, hsh, htr, hr, hb, hi⟩ := h1
  have h2 : ARel { return_to_start o 100 s1 with has_shield := false }
      { return_to_start o 100 s2 with has_shield := false } :=
    ⟨hT, hq, hc, hcur, rfl, htr, hr, hb, hi⟩
  have hpar : (cellAt (return_to_start o 100 s1).table best).parent =
      (cellAt (return_to_start o 100 s2).table best).parent :=
    scrub_parent_eq hT best
  rw [show (cellAt ({ return_to_start o 100 s1 with has_shield := false } :
      AState).table best).parent =
      (cellAt ({ return_to_start o 100 s2 with has_shield := false } :
      AState).table best).parent from hpar]
  exact smktt_rel o 100 h2 _

end Astar


namespace Astar

/-- The open-one update function respects the scrub projection. -/
theorem sCell_congr_open (k1 k2 : Int) (pc : Option Coord) :
    ∀ c c', sCell c = sCell c' →
      sCell { c with from_player_cost := k1,
                     to_target_cost := k2,
                     parent := pc } =
      sCell { c' with from_player_cost := k1,
                      to_target_cost := k2,
                      parent := pc } := by
  intro c c' hcc
  cases c
  cases c'
  simp [sCell, Cell.mk.injEq] at hcc ⊢
  tauto

/-- The status-overwrite update function respects the scrub projection. -/
theorem sCell_congr_status (es : Char) :
    ∀ c c', sCell c = sCell c' →
      sCell { c with cell_status := es } = sCell { c' with cell_status := es } := by
  intro c c' hcc
  cases c
  cases c'
  simp [sCell, Cell.mk.injEq] at hcc ⊢
  tauto

/-- An update then extraction step at the queue level: improving a cell
preserves the noninterference relation. -/
theorem open_one_rel (tnn tmm : Int) {s1 s2 : AState} (h : ARel s1 s2)
    (cn cm : Int) :
    ARel (open_one tnn tmm s1 cn cm) (open_one tnn tmm s2 cn cm) := by
  obtain ⟨hT, hq, hc, hcur, hsh, htr, hr, hb, hi⟩ := h
  simp only [open_one]
  have hst : (cellAt s1.table (cn, cm)).cell_status =
      (cellAt s2.table (cn, cm)).cell_status := scrub_status_eq hT (cn, cm)
  have hcost : (cellAt s1.table (cn, cm)).from_player_cost =
      (cellAt s2.table (cn, cm)).from_player_cost := scrub_cost_eq hT (cn, cm)
  have hcc : (cellAt s1.table s1.cur).from_player_cost =
      (cellAt s2.table s2.cur).from_player_cost := by
    rw [hcur]
    exact scrub_cost_eq hT s2.cur
  rw [hst, hcc, hcost, hcur]
  by_cases hg1 : (in_borders cn cm
      && !(dangerous_status (cellAt s2.table (cn, cm)).cell_status)) = true
  · rw [if_pos hg1, if_pos hg1]
    by_cases hg2 : (cellAt s2.table s2.cur).from_player_cost + 1 <
        (cellAt s2.table (cn, cm)).from_player_cost
    · rw [if_pos hg2, if_pos hg2]
      have hT' : scrubT (updCell s1.table (cn, cm) fun c =>
          { c with from_player_cost := (cellAt s2.table s2.cur).from_player_cost + 1,
                   to_target_cost := manhattan_distance cn cm tnn tmm,
                   parent := some s2.cur }) =
          scrubT (updCell s2.table (cn, cm) fun c =>
          { c with from_player_cost := (cellAt s2.table s2.cur).from_player_cost + 1,
                   to_target_cost := manhattan_distance cn cm tnn tmm,
                   parent := some s2.cur }) :=
        scrubT_updCell_congr hT (cn, cm) _ (sCell_congr_open _ _ _)
      refine ⟨hT', ?_, hc, rfl, hsh, htr, hr, hb, congrArg (List.cons (cn, cm)) hi⟩
      rw [pqErase_congr hT, hq, pqInsert_congr hT']
    · rw [if_neg hg2, if_neg hg2]
      exact ⟨hT, hq, hc, hcur, hsh, htr, hr, hb, hi⟩
  · rw [if_neg hg1, if_neg hg1]
    exact ⟨hT, hq, hc, hcur, hsh, htr, hr, hb, hi⟩

/-- Expanding the four neighbours preserves the noninterference
relation. -/
theorem open_neighbours_rel (tnn tmm : Int) {s1 s2 : AState} (h : ARel s1 s2) :
    ARel (open_neighbours tnn tmm s1) (open_neighbours tnn tmm s2) := by
  have hcur : s1.cur = s2.cur := h.2.2.2.1
  simp only [open_neighbours]
  rw [hcur]
  exact open_one_rel tnn tmm
    (open_one_rel tnn tmm
      (open_one_rel tnn tmm (open_one_rel tnn tmm h _ _) _ _) _ _) _ _

/-- Conditionally closing a cell on both sides preserves the
noninterference relation. -/
theorem ARel_closed_if {s1 s2 : AState} (h : ARel s1 s2) (b : Bool)
    (q : Coord) :
    ARel (if b then { s1 with closed := insClosed q s1.closed } else s1)
      (if b then { s2 with closed := insClosed q s2.closed } else s2) := by
  obtain ⟨hT, hq, hc, hcur, hsh, htr, hr, hb2, hi⟩ := h
  cases b
  · rw [if_neg (by simp), if_neg (by simp)]
    exact ⟨hT, hq, hc, hcur, hsh, htr, hr, hb2, hi⟩
  · rw [if_pos rfl, if_pos rfl]
    exact ⟨hT, hq, by rw [hc], hcur, hsh, htr, hr, hb2, hi⟩

/-- Conditionally recording the attribution set on either side preserves
the noninterference relation (the recorded set is invisible to the
scrub). -/
theorem ARel_ppb_if {s1 s2 : AState} (h : ARel s1 s2) (b1 b2 : Bool)
    (q : Coord) :
    ARel
      (if b1 then { s1 with table := updCell s1.table q fun c =>
        { c with possibly_picked_by := ['H', 'M', 'T'] } } else s1)
      (if b2 then { s2 with table := updCell s2.table q fun c =>
        { c with possibly_picked_by := ['H', 'M', 'T'] } } else s2) := by
  obtain ⟨hT, hq, hc, hcur, hsh, htr, hr, hb, hi⟩ := h
  have h1 : scrubT (updCell s1.table q fun c =>
      { c with possibly_picked_by := ['H', 'M', 'T'] }) = scrubT s1.table :=
    scrubT_updCell_ppb s1.table q _ (fun c => rfl)
  have h2 : scrubT (updCell s2.table q fun c =>
      { c with possibly_picked_by := ['H', 'M', 'T'] }) = scrubT s2.table :=
    scrubT_updCell_ppb s2.table q _ (fun c => rfl)
  cases b1 <;> cases b2
  · rw [if_neg (by simp), if_neg (by simp)]
    exact ⟨hT, hq, hc, hcur, hsh, htr, hr, hb, hi⟩
  · rw [if_neg (by simp), if_pos rfl]
    exact ⟨by rw [h2, hT], hq, hc, hcur, hsh, htr, hr, hb, hi⟩
  · rw [if_pos rfl, if_neg (by simp)]
    exact ⟨by rw [h1, hT], hq, hc, hcur, hsh, htr, hr, hb, hi⟩
  · rw [if_pos rfl, if_pos rfl]
    exact ⟨by rw [h1, h2, hT], hq, hc, hcur, hsh, htr, hr, hb, hi⟩

/-- Applying one reported event under possibly different perception
modes preserves the noninterference relation. -/
theorem applyEvent1_rel (th1 th2 : Int) (ev : Ev) {s1 s2 : AState}
    (h : ARel s1 s2) :
    ARel (applyEvent1 th1 ev s1) (applyEvent1 th2 ev s2) := by
  obtain ⟨hT, hq, hc, hcur, hsh, htr, hr, hb, hi⟩ := h
  simp only [applyEvent1]
  have hT' : scrubT (updCell s1.table (ev.en, ev.em) fun c =>
      { c with cell_status := ev.es }) =
      scrubT (updCell s2.table (ev.en, ev.em) fun c =>
      { c with cell_status := ev.es }) :=
    scrubT_updCell_congr hT (ev.en, ev.em) _ (sCell_congr_status ev.es)
  have hbase : ARel
      { s1 with table := updCell s1.table (ev.en, ev.em) fun c =>
        { c with cell_status := ev.es } }
      { s2 with table := updCell s2.table (ev.en, ev.em) fun c =>
        { c with cell_status := ev.es } } :=
    ⟨hT', hq, hc, hcur, hsh, htr, hr, hb, hi⟩
  have hcond : dangerous_status (cellAt (updCell s1.table (ev.en, ev.em)
        fun c => { c with cell_status := ev.es }) (ev.en, ev.em)).cell_status =
      dangerous_status (cellAt (updCell s2.table (ev.en, ev.em)
        fun c => { c with cell_status := ev.es }) (ev.en, ev.em)).cell_status := by
    rw [scrub_status_eq hT' (ev.en, ev.em)]
  rw [hcond]
  exact ARel_ppb_if (ARel_closed_if hbase _ _) _ _ _

/-- Applying a whole response under possibly different perception modes
preserves the noninterference relation. -/
theorem applyEvents_rel (th1 th2 : Int) :
    ∀ (evs : List Ev) {s1 s2 : AState}, ARel s1 s2 →
      ARel (applyEvents th1 evs s1) (applyEvents th2 evs s2) := by
  intro evs
  induction evs with
  | nil => intro s1 s2 h; exact h
  | cons ev rest ih =>
    intro s1 s2 h
    rw [applyEvents, applyEvents]
    exact ih (applyEvent1_rel th1 th2 ev h)

/-- The full step preserves the reached-flag and the noninterference
relation under possibly different perception modes. -/
theorem mtu_rel (o : Oracle) (tnn tmm th1 th2 : Int) {s1 s2 : AState}
    (h : ARel s1 s2) (np : Coord) :
    (move_then_update o tnn tmm th1 s1 np).1 =
      (move_then_update o tnn tmm th2 s2 np).1 ∧
    ARel (move_then_update o tnn tmm th1 s1 np).2
      (move_then_update o tnn tmm th2 s2 np).2 := by
  obtain ⟨hT, hq, hc, hcur, hsh, htr, hr, hb, hi⟩ := h
  simp only [move_then_update]
  have hst : (cellAt s1.table np).cell_status =
      (cellAt s2.table np).cell_status := scrub_status_eq hT np
  rw [hst, hr]
  by_cases hI : (cellAt s2.table np).cell_status = 'I'
  · rw [if_pos hI, if_pos hI]
    exact ⟨rfl, hT, hq, hc, hcur, hsh, congrArg (List.cons np) htr, rfl, hb, hi⟩
  · rw [if_neg hI, if_neg hI]
    by_cases hS : (cellAt s2.table np).cell_status = 'S'
    · rw [if_pos hS, if_pos hS]
      refine ⟨rfl, open_neighbours_rel tnn tmm (applyEvents_rel th1 th2 _ ?_)⟩
      exact ⟨hT, hq, by rw [hc], rfl, rfl, congrArg (List.cons np) htr, rfl,
        hb, hi⟩
    · rw [if_neg hS, if_neg hS]
      refine ⟨rfl, open_neighbours_rel tnn tmm (applyEvents_rel th1 th2 _ ?_)⟩
      exact ⟨hT, hq, by rw [hc], rfl, hsh, congrArg (List.cons np) htr, rfl,
        hb, hi⟩

end Astar


namespace Astar

/-- One extracted iteration preserves the reached-flag and the
noninterference relation under possibly different perception modes. -/
theorem astar_iter_rel (o : Oracle) (tnn tmm th1 th2 : Int) {s1 s2 : AState}
    (h : ARel s1 s2) (best : Coord) (rest : List Coord) :
    (astar_iter o tnn tmm th1 s1 best rest).1 =
      (astar_iter o tnn tmm th2 s2 best rest).1 ∧
    ARel (astar_iter o tnn tmm th1 s1 best rest).2
      (astar_iter o tnn tmm th2 s2 best rest).2 := by
  obtain ⟨hT, hq, hc, hcur, hsh, htr, hr, hb, hi⟩ := h
  simp only [astar_iter]
  have hA : ARel { s1 with openq := rest, bests := best :: s1.bests }
      { s2 with openq := rest, bests := best :: s2.bests } :=
    ⟨hT, rfl, hc, hcur, hsh, htr, hr, congrArg (List.cons best) hb, hi⟩
  have hnb : neighbour s1.cur best = neighbour s2.cur best := by rw [hcur]
  rw [hnb]
  by_cases hn : neighbour s2.cur best = true
  · rw [if_pos hn, if_pos hn]
    exact mtu_rel o tnn tmm th1 th2 hA best
  · rw [if_neg hn, if_neg hn]
    exact mtu_rel o tnn tmm th1 th2 (reconcile_rel o hA best) best

/-- The whole loop preserves the outcome and the noninterference
relation under possibly different perception modes. -/
theorem launch_rel (o : Oracle) (tnn tmm th1 th2 : Int) :
    ∀ (fuel : Nat) {s1 s2 : AState}, ARel s1 s2 →
      (launch_a_star o tnn tmm th1 fuel s1).1 =
        (launch_a_star o tnn tmm th2 fuel s2).1 ∧
      ARel (launch_a_star o tnn tmm th1 fuel s1).2
        (launch_a_star o tnn tmm th2 fuel s2).2 := by
  intro fuel
  induction fuel with
  | zero => intro s1 s2 h; exact ⟨rfl, h⟩
  | succ fuel ih =>
    intro s1 s2 h
    obtain ⟨hT, hq, hc, hcur, hsh, htr, hr, hb, hi⟩ := h
    cases hq1 : s1.openq with
    | nil =>
      have hq2 : s2.openq = [] := by rw [← hq, hq1]
      rw [launch_nil o tnn tmm th1 fuel s1 hq1,
        launch_nil o tnn tmm th2 fuel s2 hq2]
      exact ⟨rfl, hT, hq, hc, hcur, hsh, htr, hr, hb, hi⟩
    | cons a as =>
      have hq2 : s2.openq = a :: as := by rw [← hq, hq1]
      cases hext : extractFresh s1.closed (a :: as) with
      | none =>
        have hext2 : extractFresh s2.closed (a :: as) = none := by
          rw [← hc, hext]
        rw [launch_fault o tnn tmm th1 fuel s1 a as hq1 hext,
          launch_fault o tnn tmm th2 fuel s2 a as hq2 hext2]
        exact ⟨rfl, hT, hq, hc, hcur, hsh, htr, hr, hb, hi⟩
      | some pr =>
        obtain ⟨best, rest⟩ := pr
        have hext2 : extractFresh s2.closed (a :: as) = some (best, rest) := by
          rw [← hc, hext]
        rw [launch_step o tnn tmm th1 fuel s1 a best as rest hq1 hext,
          launch_step o tnn tmm th2 fuel s2 a best as rest hq2 hext2]
        have hit := astar_iter_rel o tnn tmm th1 th2
          ⟨hT, hq, hc, hcur, hsh, htr, hr, hb, hi⟩ best rest
        rw [hit.1]
        by_cases hbb : (astar_iter o tnn tmm th2 s2 best rest).1 = true
        · rw [if_pos hbb, if_pos hbb]
          exact ⟨rfl, hit.2⟩
        · rw [if_neg hbb, if_neg hbb]
          exact ih hit.2

end Astar

/-- C9. Confirmed. Perception-mode noninterference: two best-first runs
with the same oracle and targets but different perception-mode flags
produce the same outcome, the same sequence of emitted move requests and
the same final output; the flag only feeds the hero-attribution sets,
which no decision or output reads (erasing them relates the two runs
step by step). In the exploration engine the attribution update is
commented out in the source, so its run does not mention the flag at
all and its output is likewise identical. -/
theorem C9_thanos_noninterference :
    (∀ (o : Oracle) (tn tm th1 th2 : Int) (fuel : Nat),
      (Astar.astar_run o tn tm th1 fuel).1 =
        (Astar.astar_run o tn tm th2 fuel).1 ∧
      (Astar.astar_run o tn tm th1 fuel).2.trace =
        (Astar.astar_run o tn tm th2 fuel).2.trace ∧
      Astar.astar_out o tn tm th1 fuel = Astar.astar_out o tn tm th2 fuel) ∧
    (∀ (o : Oracle) (tn tm th1 th2 : Int) (df bf : Nat),
      Back.back_out o tn tm th1 df bf = Back.back_out o tn tm th2 df bf) := by
  constructor
  · intro o tn tm th1 th2 fuel
    have hinit : Astar.ARel (Astar.initAState tn tm) (Astar.initAState tn tm) :=
      ⟨rfl, rfl, rfl, rfl, rfl, rfl, rfl, rfl, rfl⟩
    have hrel := Astar.launch_rel o tn tm th1 th2 fuel hinit
    have hres : (Astar.astar_run o tn tm th1 fuel).1 =
        (Astar.astar_run o tn tm th2 fuel).1 := hrel.1
    have htr : (Astar.astar_run o tn tm th1 fuel).2.trace =
        (Astar.astar_run o tn tm th2 fuel).2.trace := hrel.2.2.2.2.2.2.1
    refine ⟨hres, htr, ?_⟩
    have hcost : (Astar.cellAt (Astar.astar_run o tn tm th1 fuel).2.table
        (tn, tm)).from_player_cost =
        (Astar.cellAt (Astar.astar_run o tn tm th2 fuel).2.table
        (tn, tm)).from_player_cost :=
      Astar.scrub_cost_eq hrel.2.1 (tn, tm)
    rw [Astar.astar_out, Astar.astar_out]
    cases hr1 : Astar.astar_run o tn tm th1 fuel with
    | mk res1 stf1 =>
      cases hr2 : Astar.astar_run o tn tm th2 fuel with
      | mk res2 stf2 =>
        rw [hr1, hr2] at hres
        rw [hr1, hr2] at hcost
        cases res1 <;> cases res2 <;> first
          | rfl
          | exact congrArg some hcost
          | exact absurd hres (by simp)
  · intro o tn tm th1 th2 df bf
    rfl


/-
  C5: cost monotonicity machinery.
-/

namespace Astar

/-- Refined update-read cases: at an aliasing coordinate the old reads
of the updated and the update coordinates coincide. -/
theorem cellAt_updCell_cases_eq (t : Table) (q : Coord) (f : Cell → Cell)
    (p : Coord) :
    cellAt (updCell t q f) p = cellAt t p ∨
    (cellAt (updCell t q f) p = f (cellAt t q) ∧ cellAt t p = cellAt t q) := by
  by_cases hi : q.1.toNat = p.1.toNat
  · by_cases hj : q.2.toNat = p.2.toNat
    · by_cases hlen : p.1.toNat < t.length
      · by_cases hlen2 : p.2.toNat < (t.getD p.1.toNat []).length
        · right
          constructor
          · unfold cellAt updCell
            rw [hi, hj, getD_set_self _ _ _ _ hlen,
              getD_set_self _ _ _ _ hlen2]
            unfold cellAt
            rw [hi, hj]
          · unfold cellAt
            rw [hi, hj]
        · left
          unfold cellAt updCell
          rw [hi, hj, getD_set_self _ _ _ _ hlen,
            List.set_eq_of_length_le (Nat.le_of_not_lt hlen2)]
      · left
        unfold cellAt updCell
        rw [hi, List.set_eq_of_length_le (Nat.le_of_not_lt (hi ▸ hlen))]
    · exact Or.inl (cellAt_updCell_other t q f p (Or.inr hj))
  · exact Or.inl (cellAt_updCell_other t q f p (Or.inl hi))

/-- One expansion attempt either leaves the table alone or performs the
improvement write, and the write only happens under the strict
improvement guard. -/
theorem open_one_table_lt (tnn tmm : Int) (s : AState) (cn cm : Int) :
    (open_one tnn tmm s cn cm).table = s.table ∨
    ((open_one tnn tmm s cn cm).table = updCell s.table (cn, cm)
      (fun c => { c with
        from_player_cost := (cellAt s.table s.cur).from_player_cost + 1,
        to_target_cost := manhattan_distance cn cm tnn tmm,
        parent := some s.cur }) ∧
     (cellAt s.table s.cur).from_player_cost + 1 <
       (cellAt s.table (cn, cm)).from_player_cost) := by
  simp only [open_one]
  by_cases hg1 : (in_borders cn cm
      && !(dangerous_status (cellAt s.table (cn, cm)).cell_status)) = true
  · rw [if_pos hg1]
    by_cases hg2 : (cellAt s.table s.cur).from_player_cost + 1 <
        (cellAt s.table (cn, cm)).from_player_cost
    · rw [if_pos hg2]
      exact Or.inr ⟨rfl, hg2⟩
    · rw [if_neg hg2]
      exact Or.inl rfl
  · rw [if_neg hg1]
    exact Or.inl rfl

/-- One expansion attempt never increases any recorded cost. -/
theorem open_one_mono (tnn tmm : Int) (s : AState) (cn cm : Int) (p : Coord) :
    (cellAt (open_one tnn tmm s cn cm).table p).from_player_cost ≤
      (cellAt s.table p).from_player_cost := by
  rcases open_one_table_lt tnn tmm s cn cm with hc | ⟨hc, hlt⟩ <;> rw [hc]
  rcases cellAt_updCell_cases_eq s.table (cn, cm) (fun c => { c with
      from_player_cost := (cellAt s.table s.cur).from_player_cost + 1,
      to_target_cost := manhattan_distance cn cm tnn tmm,
      parent := some s.cur }) p with hp | ⟨hp, hpe⟩
  · rw [hp]
  · rw [hp, hpe]
    show (cellAt s.table s.cur).from_player_cost + 1 ≤
      (cellAt s.table (cn, cm)).from_player_cost
    omega

/-- The neighbour expansion never increases any recorded cost. -/
theorem open_neighbours_mono (tnn tmm : Int) (st : AState) (p : Coord) :
    (cellAt (open_neighbours tnn tmm st).table p).from_player_cost ≤
      (cellAt st.table p).from_player_cost := by
  rw [open_neighbours]
  calc (cellAt (open_one tnn tmm (open_one tnn tmm (open_one tnn tmm
        (open_one tnn tmm st (st.cur.1 - 1) st.cur.2) (st.cur.1 + 1) st.cur.2)
        st.cur.1 (st.cur.2 - 1)) st.cur.1 (st.cur.2 + 1)).table p).from_player_cost
      ≤ (cellAt (open_one tnn tmm (open_one tnn tmm
        (open_one tnn tmm st (st.cur.1 - 1) st.cur.2) (st.cur.1 + 1) st.cur.2)
        st.cur.1 (st.cur.2 - 1)).table p).from_player_cost :=
      open_one_mono tnn tmm _ _ _ p
    _ ≤ (cellAt (open_one tnn tmm (open_one tnn tmm st (st.cur.1 - 1) st.cur.2)
        (st.cur.1 + 1) st.cur.2).table p).from_player_cost :=
      open_one_mono tnn tmm _ _ _ p
    _ ≤ (cellAt (open_one tnn tmm st (st.cur.1 - 1) st.cur.2).table
        p).from_player_cost := open_one_mono tnn tmm _ _ _ p
    _ ≤ (cellAt st.table p).from_player_cost := open_one_mono tnn tmm _ _ _ p

/-- A full step never increases any recorded cost. -/
theorem mtu_mono (o : Oracle) (tnn tmm th : Int) (st : AState) (best : Coord)
    (p : Coord) :
    (cellAt (move_then_update o tnn tmm th st best).2.table p).from_player_cost ≤
      (cellAt st.table p).from_player_cost := by
  simp only [move_then_update]
  split
  · exact le_refl _
  · split
    · calc (cellAt (open_neighbours tnn tmm _).table p).from_player_cost
          ≤ _ := open_neighbours_mono tnn tmm _ p
        _ = (cellAt st.table p).from_player_cost := by
          rw [applyEvents_proj (fun c => c.from_player_cost)
            (fun c s => rfl) (fun c => rfl) th (o st.ridx) _ p]
    · calc (cellAt (open_neighbours tnn tmm _).table p).from_player_cost
          ≤ _ := open_neighbours_mono tnn tmm _ p
        _ = (cellAt st.table p).from_player_cost := by
          rw [applyEvents_proj (fun c => c.from_player_cost)
            (fun c s => rfl) (fun c => rfl) th (o st.ridx) _ p]

/-- A loop iteration never increases any recorded cost. -/
theorem astar_iter_mono (o : Oracle) (tnn tmm th : Int) (st : AState)
    (best : Coord) (rest : List Coord) (p : Coord) :
    (cellAt (astar_iter o tnn tmm th st best rest).2.table p).from_player_cost ≤
      (cellAt st.table p).from_player_cost := by
  rw [astar_iter]
  have hm := mtu_mono o tnn tmm th
    (if neighbour ({ st with openq := rest, bests := best :: st.bests
      } : AState).cur best = true then
      ({ st with openq := rest, bests := best :: st.bests } : AState)
      else reconcile o { st with openq := rest, bests := best :: st.bests }
        best) best p
  refine le_trans hm ?_
  split
  · exact le_refl _
  · obtain ⟨_, _, _, _, r5⟩ := reconcile_frame o
      { st with openq := rest, bests := best :: st.bests } best
    rw [r5]

/-- The whole loop never increases any recorded cost. -/
theorem launch_mono (o : Oracle) (tnn tmm th : Int) :
    ∀ (fuel : Nat) (st : AState) (p : Coord),
      (cellAt (launch_a_star o tnn tmm th fuel st).2.table p).from_player_cost ≤
        (cellAt st.table p).from_player_cost := by
  intro fuel
  induction fuel with
  | zero => intro st p; exact le_refl _
  | succ fuel ih =>
    intro st p
    cases hq : st.openq with
    | nil =>
      rw [launch_nil o tnn tmm th fuel st hq]
    | cons a as =>
      cases hext : extractFresh st.closed (a :: as) with
      | none =>
        rw [launch_fault o tnn tmm th fuel st a as hq hext]
      | some pr =>
        obtain ⟨best, rest⟩ := pr
        rw [launch_step o tnn tmm th fuel st a best as rest hq hext]
        split
        · exact astar_iter_mono o tnn tmm th st best rest p
        · exact le_trans (ih _ p) (astar_iter_mono o tnn tmm th st best rest p)

end Astar


namespace Back

/-- A `contains`-negative list has no such member. -/
theorem b_not_contains (l : List Coord) (c : Coord)
    (h : l.contains c = false) : c ∉ l := by
  intro hmem
  have hc : l.contains c = true :=
    List.contains_iff_exists_mem_beq.mpr ⟨c, hmem, by simp⟩
  rw [h] at hc
  cases hc

/-- Distinct in-bounds coordinates have distinct toNat index pairs. -/
theorem b_inb_ne {a b : Coord} (ha : in_borders a.1 a.2 = true)
    (hb : in_borders b.1 b.2 = true) (hne : a ≠ b) :
    a.1.toNat ≠ b.1.toNat ∨ a.2.toNat ≠ b.2.toNat := by
  by_cases h1 : a.1.toNat = b.1.toNat
  · by_cases h2 : a.2.toNat = b.2.toNat
    · exact absurd (inb_index_inj ha hb h1 h2) hne
    · exact Or.inr h2
  · exact Or.inl h1

/-- Refined update-read cases for the backtracking table: at an aliasing
coordinate the old reads of the updated and the update coordinates
coincide. -/
theorem b_cellAt_updCell_cases_eq (t : Table) (q : Coord) (f : Cell → Cell)
    (p : Coord) :
    cellAt (updCell t q f) p = cellAt t p ∨
    (cellAt (updCell t q f) p = f (cellAt t q) ∧ cellAt t p = cellAt t q) := by
  by_cases hi : q.1.toNat = p.1.toNat
  · by_cases hj : q.2.toNat = p.2.toNat
    · by_cases hlen : p.1.toNat < t.length
      · by_cases hlen2 : p.2.toNat < (t.getD p.1.toNat []).length
        · right
          constructor
          · unfold cellAt updCell
            rw [hi, hj, getD_set_self _ _ _ _ hlen,
              getD_set_self _ _ _ _ hlen2]
            unfold cellAt
            rw [hi, hj]
          · unfold cellAt
            rw [hi, hj]
        · left
          unfold cellAt updCell
          rw [hi, hj, getD_set_self _ _ _ _ hlen,
            List.set_eq_of_length_le (Nat.le_of_not_lt hlen2)]
      · left
        unfold cellAt updCell
        rw [hi, List.set_eq_of_length_le (Nat.le_of_not_lt (hi ▸ hlen))]
    · exact Or.inl (b_cellAt_updCell_other t q f p (Or.inr hj))
  · exact Or.inl (b_cellAt_updCell_other t q f p (Or.inl hi))

/-- The cost-write effects of the sweep: the written coordinate carries
the new value, other in-bounds coordinates keep theirs, and any read
either kept its value or aliases the written coordinate. -/
theorem b_upd_cost (t : Table) (q : Coord) (v : Int) (hs : Shaped t)
    (hq : in_borders q.1 q.2 = true) :
    (cellAt (updCell t q fun cl => { cl with from_player_cost := v })
      q).from_player_cost = v ∧
    (∀ p : Coord, in_borders p.1 p.2 = true → p ≠ q →
      (cellAt (updCell t q fun cl => { cl with from_player_cost := v })
        p).from_player_cost = (cellAt t p).from_player_cost) ∧
    (∀ p : Coord,
      (cellAt (updCell t q fun cl => { cl with from_player_cost := v })
        p).from_player_cost = (cellAt t p).from_player_cost ∨
      ((cellAt (updCell t q fun cl => { cl with from_player_cost := v })
        p).from_player_cost = v ∧
        (cellAt t p).from_player_cost = (cellAt t q).from_player_cost)) := by
  refine ⟨?_, ?_, ?_⟩
  · rw [b_cellAt_updCell_same t q _ hs hq]
  · intro p hp hne
    rw [b_cellAt_updCell_other t q _ p (b_inb_ne hq hp (fun he => hne he.symm))]
  · intro p
    rcases b_cellAt_updCell_cases_eq t q
      (fun cl => { cl with from_player_cost := v }) p with hc | ⟨hc, hce⟩
    · exact Or.inl (by rw [hc])
    · exact Or.inr ⟨by rw [hc], by rw [hce]⟩

/-- The sweep invariant relative to the dequeued cell `cur`: the table
is well-shaped; `cur` is visited, its cost has the parity of its
coordinates and is bounded by the visited count; the queue costs lie in
the window `[cost cur, cost cur + 1]`, are non-decreasing, have
coordinate parity, are bounded by the visited count plus one, and all
queue entries are in bounds; the visited set is duplicate-free, in
bounds, with costs bounded by its size; and every in-bounds cell in
neither set still carries the untouched initial cost `INF`. -/
def ExpInv (cur : Coord) (s : QState) : Prop :=
  Shaped s.table ∧
  cur ∈ s.visited ∧
  ((cellAt s.table cur).from_player_cost - cur.1 - cur.2) % 2 = 0 ∧
  (cellAt s.table cur).from_player_cost ≤ (s.visited.length : Int) ∧
  s.queue.Pairwise (fun a b => (cellAt s.table a).from_player_cost ≤
    (cellAt s.table b).from_player_cost) ∧
  (∀ q ∈ s.queue,
    (cellAt s.table cur).from_player_cost ≤ (cellAt s.table q).from_player_cost ∧
    (cellAt s.table q).from_player_cost ≤
      (cellAt s.table cur).from_player_cost + 1 ∧
    ((cellAt s.table q).from_player_cost - q.1 - q.2) % 2 = 0 ∧
    (cellAt s.table q).from_player_cost ≤ (s.visited.length : Int) + 1 ∧
    in_borders q.1 q.2 = true) ∧
  s.visited.Nodup ∧
  (∀ p ∈ s.visited,
    (cellAt s.table p).from_player_cost ≤ (s.visited.length : Int) ∧
    in_borders p.1 p.2 = true) ∧
  (∀ p : Coord, in_borders p.1 p.2 = true → p ∉ s.queue → p ∉ s.visited →
    (cellAt s.table p).from_player_cost = INF)

/-- One write-and-push of the sweep preserves the invariant and never
increases any recorded cost: an overwritten queue entry receives exactly
its old value (window plus parity), and a fresh cell descends from INF. -/
theorem bfs_push_inv (cur c : Coord) (s : QState)
    (h : ExpInv cur s)
    (hadjc : c.1 + c.2 = cur.1 + cur.2 + 1 ∨ c.1 + c.2 = cur.1 + cur.2 - 1)
    (hginb : in_borders c.1 c.2 = true)
    (hgnv : c ∉ s.visited) :
    ExpInv cur { s with
      table := updCell s.table c fun cl =>
        { cl with from_player_cost := (cellAt s.table cur).from_player_cost + 1 }
      queue := s.queue ++ [c] } ∧
    (∀ p, (cellAt (updCell s.table c fun cl =>
        { cl with from_player_cost := (cellAt s.table cur).from_player_cost + 1 })
        p).from_player_cost ≤ (cellAt s.table p).from_player_cost) := by
  obtain ⟨hsh, hcv, hcpar, hcbound, hpw, hqf, hnd, hvf, hfresh⟩ := h
  have hcurinb : in_borders cur.1 cur.2 = true := (hvf cur hcv).2
  have hcne : c ≠ cur := fun he => hgnv (he ▸ hcv)
  obtain ⟨W1, W2, W3⟩ := b_upd_cost s.table c
    ((cellAt s.table cur).from_player_cost + 1) hsh hginb
  have hLpres : (cellAt (updCell s.table c fun cl =>
      { cl with from_player_cost := (cellAt s.table cur).from_player_cost + 1 })
      cur).from_player_cost = (cellAt s.table cur).from_player_cost :=
    W2 cur hcurinb (fun he => hcne he.symm)
  have hvcard : (s.visited.length : Int) ≤ 81 := by
    have hn := nodup_inb_card s.visited hnd (fun v hv => (hvf v hv).2)
    omega
  have hINF : INF = 32767 := rfl
  have hvle : (cellAt s.table cur).from_player_cost + 1 ≤
      (cellAt s.table c).from_player_cost := by
    by_cases hcq : c ∈ s.queue
    · obtain ⟨g1, g2, g3, g4, g5⟩ := hqf c hcq
      omega
    · have hfc := hfresh c hginb hcq hgnv
      omega
  have hkey : ∀ q ∈ s.queue, (cellAt (updCell s.table c fun cl =>
      { cl with from_player_cost := (cellAt s.table cur).from_player_cost + 1 })
      q).from_player_cost = (cellAt s.table q).from_player_cost := by
    intro q hq
    by_cases hqc : q = c
    · subst hqc
      rw [W1]
      obtain ⟨g1, g2, g3, g4, g5⟩ := hqf q hq
      omega
    · exact W2 q (hqf q hq).2.2.2.2 hqc
  have h1 : Shaped (updCell s.table c fun cl =>
      { cl with from_player_cost := (cellAt s.table cur).from_player_cost + 1 }) :=
    b_Shaped_updCell s.table c _ hsh
  have h3 : ((cellAt (updCell s.table c fun cl =>
      { cl with from_player_cost := (cellAt s.table cur).from_player_cost + 1 })
      cur).from_player_cost - cur.1 - cur.2) % 2 = 0 := by
    rw [hLpres]
    exact hcpar
  have h4 : (cellAt (updCell s.table c fun cl =>
      { cl with from_player_cost := (cellAt s.table cur).from_player_cost + 1 })
      cur).from_player_cost ≤ (s.visited.length : Int) := by
    rw [hLpres]
    exact hcbound
  have h5 : (s.queue ++ [c]).Pairwise (fun a b =>
      (cellAt (updCell s.table c fun cl =>
        { cl with from_player_cost := (cellAt s.table cur).from_player_cost + 1 })
        a).from_player_cost ≤
      (cellAt (updCell s.table c fun cl =>
        { cl with from_player_cost := (cellAt s.table cur).from_player_cost + 1 })
        b).from_player_cost) := by
    rw [List.pairwise_append]
    refine ⟨?_, List.pairwise_singleton _ _, ?_⟩
    · exact List.Pairwise.imp_of_mem
        (fun ha hb hab => by rw [hkey _ ha, hkey _ hb]; exact hab) hpw
    · intro a ha b hb
      rw [List.mem_singleton] at hb
      subst hb
      rw [hkey a ha, W1]
      exact (hqf a ha).2.1
  have h6 : ∀ q ∈ s.queue ++ [c],
      (cellAt (updCell s.table c fun cl =>
        { cl with from_player_cost := (cellAt s.table cur).from_player_cost + 1 })
        cur).from_player_cost ≤
      (cellAt (updCell s.table c fun cl =>
        { cl with from_player_cost := (cellAt s.table cur).from_player_cost + 1 })
        q).from_player_cost ∧
      (cellAt (updCell s.table c fun cl =>
        { cl with from_player_cost := (cellAt s.table cur).from_player_cost + 1 })
        q).from_player_cost ≤
      (cellAt (updCell s.table c fun cl =>
        { cl with from_player_cost := (cellAt s.table cur).from_player_cost + 1 })
        cur).from_player_cost + 1 ∧
      ((cellAt (updCell s.table c fun cl =>
        { cl with from_player_cost := (cellAt s.table cur).from_player_cost + 1 })
        q).from_player_cost - q.1 - q.2) % 2 = 0 ∧
      (cellAt (updCell s.table c fun cl =>
        { cl with from_player_cost := (cellAt s.table cur).from_player_cost + 1 })
        q).from_player_cost ≤ (s.visited.length : Int) + 1 ∧
      in_borders q.1 q.2 = true := by
    intro q hq
    rw [hLpres]
    rcases List.mem_append.mp hq with hq | hq
    · rw [hkey q hq]
      exact hqf q hq
    · rw [List.mem_singleton] at hq
      subst hq
      rw [W1]
      refine ⟨by omega, le_refl _, by omega, by omega, hginb⟩
  have h8 : ∀ p ∈ s.visited,
      (cellAt (updCell s.table c fun cl =>
        { cl with from_player_cost := (cellAt s.table cur).from_player_cost + 1 })
        p).from_player_cost ≤ (s.visited.length : Int) ∧
      in_borders p.1 p.2 = true := by
    intro p hp
    rw [W2 p (hvf p hp).2 (fun he => hgnv (he ▸ hp))]
    exact hvf p hp
  have h9 : ∀ p : Coord, in_borders p.1 p.2 = true → p ∉ s.queue ++ [c] →
      p ∉ s.visited →
      (cellAt (updCell s.table c fun cl =>
        { cl with from_player_cost := (cellAt s.table cur).from_player_cost + 1 })
        p).from_player_cost = INF := by
    intro p hpin hpq hpv
    have hpne : p ≠ c := fun he => hpq (by
      rw [he]
      exact List.mem_append.mpr (Or.inr (List.mem_singleton.mpr rfl)))
    rw [W2 p hpin hpne]
    exact hfresh p hpin (fun hin => hpq (List.mem_append.mpr (Or.inl hin))) hpv
  refine ⟨⟨h1, hcv, h3, h4, h5, h6, hnd, h8, h9⟩, ?_⟩
  intro p
  rcases W3 p with hc3 | ⟨hc3, hce⟩
  · rw [hc3]
  · rw [hc3, hce]
    exact hvle

end Back


namespace Back

/-- The whole lazy expansion preserves the relative sweep invariant,
leaves the visited set alone and never increases any recorded cost. -/
theorem bfs_expand_inv (cur : Coord) :
    ∀ (l : List Coord) (s : QState),
      (∀ c ∈ l, c.1 + c.2 = cur.1 + cur.2 + 1 ∨
        c.1 + c.2 = cur.1 + cur.2 - 1) →
      ExpInv cur s →
      ExpInv cur (bfs_expand cur l s).2 ∧
      (bfs_expand cur l s).2.visited = s.visited ∧
      (∀ p, (cellAt (bfs_expand cur l s).2.table p).from_player_cost ≤
        (cellAt s.table p).from_player_cost) := by
  intro l
  induction l with
  | nil =>
    intro s hadj h
    exact ⟨h, rfl, fun p => le_refl _⟩
  | cons c rest ih =>
    intro s hadj h
    simp only [bfs_expand]
    by_cases hg : (in_borders c.1 c.2
        && !(dangerous_status (cellAt s.table c).cell_status)
        && !(s.visited.contains c)) = true
    · rw [if_pos hg]
      have hginb : in_borders c.1 c.2 = true := by
        simp only [Bool.and_eq_true] at hg
        exact hg.1.1
      have hgnv : c ∉ s.visited := by
        simp only [Bool.and_eq_true, Bool.not_eq_true'] at hg
        exact b_not_contains s.visited c hg.2
      have hpush := bfs_push_inv cur c s h
        (hadj c (List.mem_cons_self c rest)) hginb hgnv
      split
      · exact ⟨hpush.1, rfl, hpush.2⟩
      · have hrec := ih _ (fun x hx => hadj x (List.mem_cons_of_mem c hx))
          hpush.1
        refine ⟨hrec.1, hrec.2.1, ?_⟩
        intro p
        exact le_trans (hrec.2.2 p) (hpush.2 p)
    · rw [if_neg hg]
      exact ih s (fun x hx => hadj x (List.mem_cons_of_mem c hx)) h

/-- The sweep invariant at a loop boundary: the queue costs are
non-decreasing and all within one of each other, with coordinate parity,
bounded by the visited count plus one; the visited set is duplicate-free,
in bounds, cost-bounded by its size; untouched in-bounds cells still
carry INF. -/
def BfsInv (s : QState) : Prop :=
  Shaped s.table ∧
  s.queue.Pairwise (fun a b => (cellAt s.table a).from_player_cost ≤
    (cellAt s.table b).from_player_cost) ∧
  (∀ a ∈ s.queue, ∀ b ∈ s.queue,
    (cellAt s.table b).from_player_cost ≤
      (cellAt s.table a).from_player_cost + 1) ∧
  (∀ q ∈ s.queue,
    ((cellAt s.table q).from_player_cost - q.1 - q.2) % 2 = 0 ∧
    (cellAt s.table q).from_player_cost ≤ (s.visited.length : Int) + 1 ∧
    in_borders q.1 q.2 = true) ∧
  s.visited.Nodup ∧
  (∀ p ∈ s.visited,
    (cellAt s.table p).from_player_cost ≤ (s.visited.length : Int) ∧
    in_borders p.1 p.2 = true) ∧
  (∀ p : Coord, in_borders p.1 p.2 = true → p ∉ s.queue → p ∉ s.visited →
    (cellAt s.table p).from_player_cost = INF)

/-- The relative invariant implies the boundary invariant. -/
theorem ExpInv_to_BfsInv (cur : Coord) (r : QState) (h : ExpInv cur r) :
    BfsInv r := by
  obtain ⟨hsh, hcv, hcpar, hcb, hpw, hqf, hnd, hvf, hfresh⟩ := h
  refine ⟨hsh, hpw, ?_, ?_, hnd, hvf, hfresh⟩
  · intro a ha b hb
    have ga := hqf a ha
    have gb := hqf b hb
    omega
  · intro q hq
    obtain ⟨g1, g2, g3, g4, g5⟩ := hqf q hq
    exact ⟨g3, g4, g5⟩

/-- One sweep iteration preserves the boundary invariant and never
increases any recorded cost. -/
theorem bfs_step_inv (s : QState) (h : BfsInv s) :
    BfsInv (bfs_step s) ∧
    ∀ p, (cellAt (bfs_step s).table p).from_player_cost ≤
      (cellAt s.table p).from_player_cost := by
  obtain ⟨hsh, hpw, hwin, hqf, hnd, hvf, hfresh⟩ := h
  by_cases hst : s.stopped = true
  · have heq : bfs_step s = s := by rw [bfs_step, if_pos hst]
    rw [heq]
    exact ⟨⟨hsh, hpw, hwin, hqf, hnd, hvf, hfresh⟩, fun p => le_refl _⟩
  · cases hq : s.queue with
    | nil =>
      have heq : bfs_step s = s := by rw [bfs_step, if_neg hst, hq]
      rw [heq]
      exact ⟨⟨hsh, hpw, hwin, hqf, hnd, hvf, hfresh⟩, fun p => le_refl _⟩
    | cons cur rest =>
      have heq : bfs_step s =
          (if (bfs_expand cur (neighborsOf cur)
              { s with queue := rest, visited := insVis cur s.visited }).1 = true
           then { (bfs_expand cur (neighborsOf cur)
              { s with queue := rest, visited := insVis cur s.visited }).2
              with stopped := true }
           else (bfs_expand cur (neighborsOf cur)
              { s with queue := rest, visited := insVis cur s.visited }).2) := by
        rw [bfs_step, if_neg hst, hq]
      rw [hq] at hpw hwin hqf
      obtain ⟨hhead, hpw2⟩ := List.pairwise_cons.mp hpw
      have hcur_mem : cur ∈ cur :: rest := List.mem_cons_self cur rest
      obtain ⟨hcpar, hcbound0, hcinb⟩ := hqf cur hcur_mem
      have hup : ∀ q ∈ rest, (cellAt s.table q).from_player_cost ≤
          (cellAt s.table cur).from_player_cost + 1 :=
        fun q hqm => hwin cur hcur_mem q (List.mem_cons_of_mem cur hqm)
      have hadj : ∀ c ∈ neighborsOf cur,
          c.1 + c.2 = cur.1 + cur.2 + 1 ∨ c.1 + c.2 = cur.1 + cur.2 - 1 := by
        intro c hc
        simp only [neighborsOf, List.mem_cons, List.not_mem_nil, or_false] at hc
        rcases hc with hc | hc | hc | hc <;> subst hc
        · right
          show cur.1 - 1 + cur.2 = cur.1 + cur.2 - 1
          omega
        · right
          show cur.1 + (cur.2 - 1) = cur.1 + cur.2 - 1
          omega
        · left
          show cur.1 + (cur.2 + 1) = cur.1 + cur.2 + 1
          omega
        · left
          show cur.1 + 1 + cur.2 = cur.1 + cur.2 + 1
          omega
      have hVlen : (s.visited.length : Int) ≤
          ((insVis cur s.visited).length : Int) ∧
          (cellAt s.table cur).from_player_cost ≤
            ((insVis cur s.visited).length : Int) ∧
          (insVis cur s.visited).Nodup ∧ cur ∈ insVis cur s.visited := by
        by_cases hmem : cur ∈ s.visited
        · rw [insVis, if_pos hmem]
          exact ⟨le_refl _, (hvf cur hmem).1, hnd, hmem⟩
        · rw [insVis, if_neg hmem]
          refine ⟨?_, ?_, List.nodup_cons.mpr ⟨hmem, hnd⟩,
            List.mem_cons_self _ _⟩
          · simp only [List.length_cons]
            omega
          · simp only [List.length_cons]
            omega
      obtain ⟨hVle, hcb2, hnd2, hcvis⟩ := hVlen
      have hsub : s.visited ⊆ insVis cur s.visited := by
        intro x hx
        by_cases hmem : cur ∈ s.visited
        · rw [insVis, if_pos hmem]
          exact hx
        · rw [insVis, if_neg hmem]
          exact List.mem_cons_of_mem _ hx
      have hvf2 : ∀ p ∈ insVis cur s.visited,
          (cellAt s.table p).from_player_cost ≤
            ((insVis cur s.visited).length : Int) ∧
          in_borders p.1 p.2 = true := by
        intro p hp
        by_cases hmem : cur ∈ s.visited
        · rw [insVis, if_pos hmem] at hp ⊢
          exact hvf p hp
        · rw [insVis, if_neg hmem] at hp ⊢
          rcases List.mem_cons.mp hp with hp | hp
          · subst hp
            refine ⟨?_, hcinb⟩
            simp only [List.length_cons]
            omega
          · refine ⟨?_, (hvf p hp).2⟩
            have hb := (hvf p hp).1
            simp only [List.length_cons]
            omega
      have hfr2 : ∀ p : Coord, in_borders p.1 p.2 = true → p ∉ rest →
          p ∉ insVis cur s.visited →
          (cellAt s.table p).from_player_cost = INF := by
        intro p hpin hpr hpv
        have hpcur : p ≠ cur := fun he => hpv (he ▸ hcvis)
        have hpq : p ∉ s.queue := by
          rw [hq]
          intro hmem2
          rcases List.mem_cons.mp hmem2 with he | he
          · exact hpcur he
          · exact hpr he
        exact hfresh p hpin hpq (fun hin => hpv (hsub hin))
      have hqf2 : ∀ q ∈ rest,
          (cellAt s.table cur).from_player_cost ≤
            (cellAt s.table q).from_player_cost ∧
          (cellAt s.table q).from_player_cost ≤
            (cellAt s.table cur).from_player_cost + 1 ∧
          ((cellAt s.table q).from_player_cost - q.1 - q.2) % 2 = 0 ∧
          (cellAt s.table q).from_player_cost ≤
            ((insVis cur s.visited).length : Int) + 1 ∧
          in_borders q.1 q.2 = true := by
        intro q hqm
        obtain ⟨g3, g4, g5⟩ := hqf q (List.mem_cons_of_mem cur hqm)
        exact ⟨hhead q hqm, hup q hqm, g3, by omega, g5⟩
      have hexp := bfs_expand_inv cur (neighborsOf cur)
        { s with queue := rest, visited := insVis cur s.visited } hadj
        ⟨hsh, hcvis, hcpar, hcb2, hpw2, hqf2, hnd2, hvf2, hfr2⟩
      rw [heq]
      split
      · exact ⟨ExpInv_to_BfsInv cur _ hexp.1, fun p => hexp.2.2 p⟩
      · exact ⟨ExpInv_to_BfsInv cur _ hexp.1, fun p => hexp.2.2 p⟩

/-- The whole sweep preserves the invariant, and each iteration never
increases any recorded cost. -/
theorem bfs_run_inv (t : Table)
    (h : BfsInv { table := t, queue := [((0 : Int), (0 : Int))],
                  visited := [], stopped := false }) :
    ∀ k : Nat, BfsInv (bfs_run t k) ∧
      ∀ p, (cellAt (bfs_run t (k + 1)).table p).from_player_cost ≤
        (cellAt (bfs_run t k).table p).from_player_cost := by
  have hstep_eq : ∀ m : Nat, bfs_run t (m + 1) = bfs_step (bfs_run t m) := by
    intro m
    rw [bfs_run, bfs_run, Function.iterate_succ_apply']
  intro k
  induction k with
  | zero =>
    refine ⟨h, ?_⟩
    intro p
    rw [hstep_eq 0]
    exact (bfs_step_inv _ h).2 p
  | succ k ih =>
    have hB : BfsInv (bfs_run t (k + 1)) := by
      rw [hstep_eq k]
      exact (bfs_step_inv _ ih.1).1
    refine ⟨hB, ?_⟩
    intro p
    rw [hstep_eq (k + 1)]
    exact (bfs_step_inv _ hB).2 p

/-- The untouched base grid carries cost INF everywhere. -/
theorem b_base_cost : ∀ p : Coord,
    (cellAt ((List.range 9).map fun i => (List.range 9).map fun q =>
      mkCell (Int.ofNat i) (Int.ofNat q)) p).from_player_cost = INF := by
  intro p
  unfold cellAt
  have hrow := getD_mem_or ((List.range 9).map fun i =>
    (List.range 9).map fun q => mkCell (Int.ofNat i) (Int.ofNat q))
    p.1.toNat []
  have hbase : ∀ r ∈ (List.range 9).map (fun i =>
      (List.range 9).map fun q => mkCell (Int.ofNat i) (Int.ofNat q)),
      ∀ c ∈ r, c.from_player_cost = INF := by decide
  rcases hrow with hr | hr
  · have hcell := getD_mem_or (((List.range 9).map fun i =>
        (List.range 9).map fun q => mkCell (Int.ofNat i) (Int.ofNat q)
        ).getD p.1.toNat []) p.2.toNat (mkCell 0 0)
    rcases hcell with hc | hc
    · exact hbase _ hr _ hc
    · rw [hc]
      rfl
  · rw [hr]
    cases p.2.toNat <;> rfl

/-- The base grid is well-shaped. -/
theorem b_Shaped_base : Shaped ((List.range 9).map fun i =>
    (List.range 9).map fun q => mkCell (Int.ofNat i) (Int.ofNat q)) := by
  unfold Shaped
  decide

/-- The grid after the start-cell write still carries cost INF away from
the start. -/
theorem b_t1_cost (p : Coord) (hp : in_borders p.1 p.2 = true)
    (hne : p ≠ (0, 0)) :
    (cellAt (updCell ((List.range 9).map fun i => (List.range 9).map fun q =>
      mkCell (Int.ofNat i) (Int.ofNat q)) (0, 0) fun _ =>
      (⟨0, 0, 0, 'A', []⟩ : Cell)) p).from_player_cost = INF := by
  have h0 : in_borders (((0 : Int), (0 : Int)) : Coord).1
      (((0 : Int), (0 : Int)) : Coord).2 = true := by decide
  rw [b_cellAt_updCell_other _ (0, 0) _ p
    (b_inb_ne h0 hp (fun he => hne he.symm))]
  exact b_base_cost p

/-- Every in-bounds cell other than the start carries cost INF in the
fresh grid. -/
theorem b_init_cost_ne (tn tm : Int) (p : Coord)
    (hp : in_borders p.1 p.2 = true) (hne : p ≠ (0, 0)) :
    (cellAt (init_game_table tn tm) p).from_player_cost = INF := by
  simp only [init_game_table]
  rcases b_cellAt_updCell_cases
    (updCell ((List.range 9).map fun i => (List.range 9).map fun q =>
      mkCell (Int.ofNat i) (Int.ofNat q)) (0, 0) fun _ =>
      (⟨0, 0, 0, 'A', []⟩ : Cell)) (tn, tm)
    (fun _ => (⟨tn, tm, INF, 'I', []⟩ : Cell)) p with hc | hc
  · rw [hc]
    exact b_t1_cost p hp hne
  · rw [hc]

/-- The start cell carries cost 0 in the fresh grid whenever the stone
is in bounds and away from the start. -/
theorem b_init_cost_00 (tn tm : Int) (hinb : in_borders tn tm = true)
    (hne : ((tn, tm) : Coord) ≠ (0, 0)) :
    (cellAt (init_game_table tn tm) (0, 0)).from_player_cost = 0 := by
  simp only [init_game_table]
  have h0 : in_borders (((0 : Int), (0 : Int)) : Coord).1
      (((0 : Int), (0 : Int)) : Coord).2 = true := by decide
  rw [b_cellAt_updCell_other _ (tn, tm) _ (0, 0) (b_inb_ne hinb h0 hne)]
  rw [b_cellAt_updCell_same _ (0, 0) _ b_Shaped_base h0]

/-- The boundary invariant holds at the start of the sweep on any
well-shaped table whose costs are the fresh ones, for a stone in bounds
and away from the start. -/
theorem bfs_init_inv (tn tm : Int) (t : Table) (hsh : Shaped t)
    (hcost : ∀ p : Coord, (cellAt t p).from_player_cost =
      (cellAt (init_game_table tn tm) p).from_player_cost)
    (hinb : in_borders tn tm = true) (hne : ((tn, tm) : Coord) ≠ (0, 0)) :
    BfsInv { table := t, queue := [((0 : Int), (0 : Int))], visited := [],
             stopped := false } := by
  have h00 : (cellAt t (((0 : Int), (0 : Int)) : Coord)).from_player_cost = 0 := by
    rw [hcost]
    exact b_init_cost_00 tn tm hinb hne
  have hIN : ∀ p : Coord, in_borders p.1 p.2 = true → p ≠ (0, 0) →
      (cellAt t p).from_player_cost = INF := by
    intro p hp hpne
    rw [hcost]
    exact b_init_cost_ne tn tm p hp hpne
  have hA : ([((0 : Int), (0 : Int))] : List Coord).Pairwise (fun a b =>
      (cellAt t a).from_player_cost ≤ (cellAt t b).from_player_cost) :=
    List.pairwise_singleton _ _
  have hB : ∀ a ∈ ([((0 : Int), (0 : Int))] : List Coord),
      ∀ b ∈ ([((0 : Int), (0 : Int))] : List Coord),
      (cellAt t b).from_player_cost ≤ (cellAt t a).from_player_cost + 1 := by
    intro a ha b hb
    rw [List.mem_singleton] at ha hb
    subst ha
    subst hb
    rw [h00]
    omega
  have hC : ∀ q ∈ ([((0 : Int), (0 : Int))] : List Coord),
      ((cellAt t q).from_player_cost - q.1 - q.2) % 2 = 0 ∧
      (cellAt t q).from_player_cost ≤
        ((([] : List Coord).length : Nat) : Int) + 1 ∧
      in_borders q.1 q.2 = true := by
    intro q hq
    rw [List.mem_singleton] at hq
    subst hq
    rw [h00]
    refine ⟨by omega, by simp, by decide⟩
  have hD : ∀ p ∈ ([] : List Coord),
      (cellAt t p).from_player_cost ≤ ((([] : List Coord).length : Nat) : Int) ∧
      in_borders p.1 p.2 = true := by
    intro p hp
    exact absurd hp (List.not_mem_nil p)
  have hE : ∀ p : Coord, in_borders p.1 p.2 = true →
      p ∉ ([((0 : Int), (0 : Int))] : List Coord) → p ∉ ([] : List Coord) →
      (cellAt t p).from_player_cost = INF := by
    intro p hpin hpq hpv
    exact hIN p hpin (fun he => hpq (by rw [he]; exact List.mem_singleton.mpr rfl))
  exact ⟨hsh, hA, hB, hC, List.nodup_nil, hD, hE⟩

end Back


/-- C5. Cost mutations only ever improve, over every valid run (the
stone in bounds and distinct from the start cell, the game's input
precondition). (1) The best-first engine: a whole run (hence each of
its iterations) never increases any cell's recorded cost_from_start —
the expansion guard requires a strict improvement before writing.
(2) The exhaustive engine's exploration phase, whenever it completes,
changes no recorded cost at all. (3) The exhaustive engine's cost
sweep, run on any well-shaped table whose costs are still the fresh
ones (by part (2) that is the table the sweep actually receives), is
pointwise non-increasing at every iteration for every valid stone
position: an overwrite of an already-queued cell rewrites exactly its
old value (the BFS level window plus coordinate parity), and a fresh
cell's cost descends from INF. -/
theorem C5_cost_monotone :
    (∀ (o : Oracle) (tnn tmm th : Int) (fuel : Nat) (st : Astar.AState)
      (p : Coord),
      (Astar.cellAt (Astar.launch_a_star o tnn tmm th fuel st).2.table
        p).from_player_cost ≤ (Astar.cellAt st.table p).from_player_cost) ∧
    (∀ (o : Oracle) (df : Nat) (c : Coord) (st : Back.BState) (p : Coord),
      (Back.backtracking_dfs o df c st).elim True (fun r =>
        (Back.cellAt r.2.table p).from_player_cost =
          (Back.cellAt st.table p).from_player_cost)) ∧
    (∀ (tn tm : Int) (t : Back.Table), Back.Shaped t →
      (∀ p : Coord, (Back.cellAt t p).from_player_cost =
        (Back.cellAt (Back.init_game_table tn tm) p).from_player_cost) →
      in_borders tn tm = true → ((tn, tm) : Coord) ≠ (0, 0) →
      ∀ (k : Nat) (p : Coord),
        (Back.cellAt (Back.bfs_run t (k + 1)).table p).from_player_cost ≤
          (Back.cellAt (Back.bfs_run t k).table p).from_player_cost) := by
  refine ⟨?_, ?_, ?_⟩
  · intro o tnn tmm th fuel st p
    exact Astar.launch_mono o tnn tmm th fuel st p
  · intro o df c st p
    cases hd : Back.backtracking_dfs o df c st with
    | none => trivial
    | some r =>
      simp only [Option.elim]
      exact (Back.dfs_cost_eq_all o df).1 c st r.1 r.2 (by rw [hd]) p
  · intro tn tm t hsh hcost hinb hne k p
    exact ((Back.bfs_run_inv t
      (Back.bfs_init_inv tn tm t hsh hcost hinb hne)) k).2 p

/-- Witness: on the fresh well-shaped grid with the stone at (3,3), the
first sweep iteration does not increase the cost of (0,1). -/
theorem C5_cost_monotone_witness :
    Back.Shaped (Back.init_game_table 3 3) ∧
    in_borders 3 3 = true ∧ (((3 : Int), (3 : Int)) : Coord) ≠ (0, 0) ∧
    (Back.cellAt (Back.bfs_run (Back.init_game_table 3 3) (0 + 1)).table
      (0, 1)).from_player_cost ≤
    (Back.cellAt (Back.bfs_run (Back.init_game_table 3 3) 0).table
      (0, 1)).from_player_cost :=
  ⟨Back.b_Shaped_init 3 3, by decide, by decide,
   C5_cost_monotone.2.2 3 3 (Back.init_game_table 3 3)
     (Back.b_Shaped_init 3 3) (fun p => rfl) (by decide) (by decide) 0 (0, 1)⟩

end AIHW
